import Mathlib

/-! # Proxy signature scheme over P-256

A shallow embedding of `signature.go`: the five operations `GenerateSignature`,
`CheckIdentity`, `GenerateSigningKey`, `SignMessage` and `CheckSignature`, together with
models of the library calls they make (`math/big`, `crypto/sha256`, `crypto/elliptic`,
`crypto/rand`, `io`).  Values of type `*big.Int` are integers, byte slices are lists of bytes,
and a call that panics in Go returns `none`.
-/

namespace ProxySignature

/-! ## `math/big` -/

/-- Big-endian digits of `n` in base 256 pushed in front of `acc`; `fuel` bounds the number
of digits produced. -/
def natBytesAux : Nat → Nat → List UInt8 → List UInt8
  | 0, _, acc => acc
  | fuel + 1, n, acc =>
    if n = 0 then acc else natBytesAux fuel (n / 256) (UInt8.ofNat (n % 256) :: acc)

/-- The method `(*big.Int).Bytes`: the big-endian byte slice of the absolute value of `x`,
without leading zero bytes (the empty slice for zero). -/
def Bytes (x : Int) : List UInt8 :=
  natBytesAux x.natAbs x.natAbs []

/-- The method `(*big.Int).SetBytes`: the unsigned integer a big-endian byte slice stands
for. -/
def SetBytes (buf : List UInt8) : Nat :=
  buf.foldl (fun acc b => acc * 256 + b.toNat) 0

/-- The method `(*big.Int).FillBytes` for a buffer of `n` bytes that the value fits in: the
big-endian bytes of the absolute value of `x` after leading zero bytes. -/
def FillBytes (x : Int) (n : Nat) : List UInt8 :=
  List.replicate (n - (Bytes x).length) 0 ++ Bytes x

/-! ## `crypto/sha256` -/

/-- Round constants of SHA-256. -/
def sha256K : List Nat :=
  [0x428a2f98, 0x71374491, 0xb5c0fbcf, 0xe9b5dba5, 0x3956c25b, 0x59f111f1, 0x923f82a4, 0xab1c5ed5,
   0xd807aa98, 0x12835b01, 0x243185be, 0x550c7dc3, 0x72be5d74, 0x80deb1fe, 0x9bdc06a7, 0xc19bf174,
   0xe49b69c1, 0xefbe4786, 0x0fc19dc6, 0x240ca1cc, 0x2de92c6f, 0x4a7484aa, 0x5cb0a9dc, 0x76f988da,
   0x983e5152, 0xa831c66d, 0xb00327c8, 0xbf597fc7, 0xc6e00bf3, 0xd5a79147, 0x06ca6351, 0x14292967,
   0x27b70a85, 0x2e1b2138, 0x4d2c6dfc, 0x53380d13, 0x650a7354, 0x766a0abb, 0x81c2c92e, 0x92722c85,
   0xa2bfe8a1, 0xa81a664b, 0xc24b8b70, 0xc76c51a3, 0xd192e819, 0xd6990624, 0xf40e3585, 0x106aa070,
   0x19a4c116, 0x1e376c08, 0x2748774c, 0x34b0bcb5, 0x391c0cb3, 0x4ed8aa4a, 0x5b9cca4f, 0x682e6ff3,
   0x748f82ee, 0x78a5636f, 0x84c87814, 0x8cc70208, 0x90befffa, 0xa4506ceb, 0xbef9a3f7, 0xc67178f2]

/-- The eight 32-bit words of a SHA-256 chaining value. -/
structure Sha256State where
  a : Nat
  b : Nat
  c : Nat
  d : Nat
  e : Nat
  f : Nat
  g : Nat
  h : Nat

/-- Initial chaining value of SHA-256. -/
def sha256Init : Sha256State :=
  ⟨0x6a09e667, 0xbb67ae85, 0x3c6ef372, 0xa54ff53a, 0x510e527f, 0x9b05688c, 0x1f83d9ab, 0x5be0cd19⟩

/-- Rotation of a 32-bit word to the right by `n` bits. -/
def rotr32 (x n : Nat) : Nat :=
  ((x >>> n) ||| (x <<< (32 - n))) % 2 ^ 32

/-- Padding of SHA-256: the message, one byte `0x80`, zero bytes up to 56 modulo 64 and the
bit length of the message as a 64-bit big-endian integer. -/
def sha256Pad (msg : List UInt8) : List Nat :=
  let n := msg.length
  let bits := (8 * n) % 2 ^ 64
  msg.map UInt8.toNat ++ [0x80] ++ List.replicate ((119 - n % 64) % 64) 0 ++
    (List.range 8).map (fun i => (bits >>> (8 * (7 - i))) % 256)

/-- Big-endian 32-bit words of a byte string. -/
def sha256Words : List Nat → List Nat
  | b0 :: b1 :: b2 :: b3 :: rest =>
    (b0 * 2 ^ 24 + b1 * 2 ^ 16 + b2 * 2 ^ 8 + b3) :: sha256Words rest
  | _ => []

/-- Extension of the message schedule by `n` words; the schedule is kept newest word first. -/
def sha256Extend : Nat → List Nat → List Nat
  | 0, r => r
  | n + 1, r =>
    let w2 := r.getD 1 0
    let w15 := r.getD 14 0
    let s0 := rotr32 w15 7 ^^^ rotr32 w15 18 ^^^ (w15 >>> 3)
    let s1 := rotr32 w2 17 ^^^ rotr32 w2 19 ^^^ (w2 >>> 10)
    sha256Extend n ((r.getD 15 0 + s0 + r.getD 6 0 + s1) % 2 ^ 32 :: r)

/-- One round of the SHA-256 compression function with round constant `k` and schedule
word `w`. -/
def sha256Round (s : Sha256State) (kw : Nat × Nat) : Sha256State :=
  let S1 := rotr32 s.e 6 ^^^ rotr32 s.e 11 ^^^ rotr32 s.e 25
  let ch := (s.e &&& s.f) ^^^ ((s.e ^^^ (2 ^ 32 - 1)) &&& s.g)
  let t1 := (s.h + S1 + ch + kw.1 + kw.2) % 2 ^ 32
  let S0 := rotr32 s.a 2 ^^^ rotr32 s.a 13 ^^^ rotr32 s.a 22
  let maj := (s.a &&& s.b) ^^^ (s.a &&& s.c) ^^^ (s.b &&& s.c)
  let t2 := (S0 + maj) % 2 ^ 32
  ⟨(t1 + t2) % 2 ^ 32, s.a, s.b, s.c, (s.d + t1) % 2 ^ 32, s.e, s.f, s.g⟩

/-- The SHA-256 compression function on one block of sixteen words. -/
def sha256Block (H : Sha256State) (block : List Nat) : Sha256State :=
  let w := (sha256Extend 48 block.reverse).reverse
  let s := (sha256K.zip w).foldl sha256Round H
  ⟨(H.a + s.a) % 2 ^ 32, (H.b + s.b) % 2 ^ 32, (H.c + s.c) % 2 ^ 32, (H.d + s.d) % 2 ^ 32,
   (H.e + s.e) % 2 ^ 32, (H.f + s.f) % 2 ^ 32, (H.g + s.g) % 2 ^ 32, (H.h + s.h) % 2 ^ 32⟩

/-- Compression of `n` consecutive blocks of sixteen words. -/
def sha256Blocks : Nat → List Nat → Sha256State → Sha256State
  | 0, _, H => H
  | n + 1, ws, H => sha256Blocks n (ws.drop 16) (sha256Block H (ws.take 16))

/-- The four big-endian bytes of a 32-bit word. -/
def word32Bytes (w : Nat) : List UInt8 :=
  [UInt8.ofNat (w / 2 ^ 24 % 256), UInt8.ofNat (w / 2 ^ 16 % 256), UInt8.ofNat (w / 2 ^ 8 % 256),
   UInt8.ofNat (w % 256)]

/-- The function `sha256.Sum256`: the 32-byte SHA-256 digest of `data`. -/
def Sum256 (data : List UInt8) : List UInt8 :=
  let ws := sha256Words (sha256Pad data)
  let s := sha256Blocks (ws.length / 16) ws sha256Init
  word32Bytes s.a ++ word32Bytes s.b ++ word32Bytes s.c ++ word32Bytes s.d ++
    word32Bytes s.e ++ word32Bytes s.f ++ word32Bytes s.g ++ word32Bytes s.h

/-! ## `crypto/elliptic`: the curve P-256 -/

/-- The prime `p` of the base field of P-256. -/
def p256P : Nat := 115792089210356248762697446949407573530086143415290314195533631308867097853951

/-- The order `N` of the base point of P-256. -/
def p256N : Nat := 115792089210356248762697446949407573529996955224135760342422259061068512044369

/-- The coefficient `b` of the curve equation `y² = x³ - 3x + b`. -/
def p256B : Nat := 41058363725152142129326129780047268409114441015993725554835256314039467401291

/-- The x-coordinate of the base point `G`. -/
def p256Gx : Nat := 48439561293906451759052585252797914202762949526041747995844080717082404635286

/-- The y-coordinate of the base point `G`. -/
def p256Gy : Nat := 36134250956749795798585127919587881956611106672985015071877198253568414405109

/-- Square-and-multiply `a ^ e % m`; `fuel` bounds the number of bits of `e`. -/
def powModAux : Nat → Nat → Nat → Nat → Nat
  | 0, _, _, m => 1 % m
  | fuel + 1, a, e, m =>
    if e = 0 then 1 % m
    else
      let r := powModAux fuel a (e / 2) m
      let s := r * r % m
      if e % 2 = 1 then s * a % m else s

/-- Modular exponentiation `a ^ e % m`. -/
def powMod (a e m : Nat) : Nat :=
  powModAux e a e m

/-- Inverse in the base field (zero for zero), by Fermat's little theorem. -/
def fieldInv (a : Nat) : Nat :=
  powMod a (p256P - 2) p256P

/-- The curve equation on reduced coordinates. -/
def isOnCurve (x y : Nat) : Bool :=
  y * y % p256P == (x * x * x + (p256P - 3) * x + p256B) % p256P

/-- The point with abscissa `x3 = l² - x1 - x2` on the line of slope `l` through `(x1, y1)`,
reflected in the x-axis. -/
def chord (l x1 y1 x2 : Nat) : Nat × Nat :=
  let x3 := (l * l + (p256P - x1) + (p256P - x2)) % p256P
  (x3, (l * (x1 + (p256P - x3)) + (p256P - y1)) % p256P)

/-- The group law of the curve on affine coordinates below `p`, the pair `(0, 0)` standing
for the point at infinity. -/
def affineAdd (P Q : Nat × Nat) : Nat × Nat :=
  if P = (0, 0) then Q
  else if Q = (0, 0) then P
  else if P.1 = Q.1 then
    if (P.2 + Q.2) % p256P = 0 then (0, 0)
    else
      chord ((3 * (P.1 * P.1) + (p256P - 3)) % p256P * fieldInv (2 * P.2 % p256P) % p256P)
        P.1 P.2 Q.1
  else
    chord ((P.2 + (p256P - Q.2)) % p256P * fieldInv ((P.1 + (p256P - Q.1)) % p256P) % p256P)
      P.1 P.2 Q.1

/-- Double-and-add `n · P`; `fuel` bounds the number of bits of `n`. -/
def scalarMulAux : Nat → Nat → Nat × Nat → Nat × Nat
  | 0, _, _ => (0, 0)
  | fuel + 1, n, P =>
    if n = 0 then (0, 0)
    else
      let r := scalarMulAux fuel (n / 2) P
      let d := affineAdd r r
      if n % 2 = 1 then affineAdd d P else d

/-- The multiple `n · P` of a point of the curve. -/
def scalarMul (n : Nat) (P : Nat × Nat) : Nat × Nat :=
  scalarMulAux n n P

/-- The conversion `pointFromAffine`: `(0, 0)` is the point at infinity; a negative
coordinate, a coordinate of more than 256 bits, a coordinate not below `p` and a pair off
the curve are rejected (`Add` and `ScalarMult` panic on them). -/
def pointFromAffine (x y : Int) : Option (Nat × Nat) :=
  if x = 0 ∧ y = 0 then some (0, 0)
  else if x < 0 ∨ y < 0 then none
  else if 2 ^ 256 ≤ x ∨ 2 ^ 256 ≤ y then none
  else if x.toNat < p256P ∧ y.toNat < p256P ∧ isOnCurve x.toNat y.toNat then
    some (x.toNat, y.toNat)
  else none

/-- The conversion `pointToAffine`: the point at infinity becomes `(0, 0)`. -/
def pointToAffine (P : Nat × Nat) : Int × Int :=
  ((P.1 : Int), (P.2 : Int))

/-- The value of `normalizeScalar scalar`: a scalar of 32 bytes is taken as it is, a longer
one is reduced modulo `N`, a shorter one is padded with leading zero bytes. -/
def normalizeScalar (scalar : List UInt8) : Nat :=
  if scalar.length = 32 then SetBytes scalar
  else if scalar.length > 32 then SetBytes scalar % p256N
  else SetBytes scalar

/-- The method `curve.Add` of `elliptic.P256()`. -/
def Add (x1 y1 x2 y2 : Int) : Option (Int × Int) := do
  let p1 ← pointFromAffine x1 y1
  let p2 ← pointFromAffine x2 y2
  pure (pointToAffine (affineAdd p1 p2))

/-- The method `curve.ScalarMult` of `elliptic.P256()`. -/
def ScalarMult (Bx By : Int) (scalar : List UInt8) : Option (Int × Int) := do
  let p ← pointFromAffine Bx By
  pure (pointToAffine (scalarMul (normalizeScalar scalar) p))

/-- The method `curve.ScalarBaseMult` of `elliptic.P256()`. -/
def ScalarBaseMult (scalar : List UInt8) : Int × Int :=
  pointToAffine (scalarMul (normalizeScalar scalar) (p256Gx, p256Gy))

/-! ## `signature.go` -/

/-- The struct `Signature`: the warrant point `(xP, yP)`, the scalar `S` and the weight `W`
(an `int64`). -/
structure Signature where
  xP : Int
  yP : Int
  S : Int
  W : Int

/-- The values of the Go type `int64`. -/
def isInt64 (w : Int) : Prop :=
  -2 ^ 63 ≤ w ∧ w < 2 ^ 63

instance (w : Int) : Decidable (isInt64 w) := by
  unfold isInt64; infer_instance

/-- The function `GenerateSignature`.  The argument `randInt` is the call
`rand.Int(rand.Reader, ·)`: given the exclusive upper bound it returns a value or an error. -/
def GenerateSignature {ε : Type} (randInt : Int → Except ε Int) (d : Int) (w : Int) :
    Except ε Signature :=
  let max : Int := 2 ^ 130 - 1
  match randInt max with
  | .error err => .error err
  | .ok k =>
    let (xP, yP) := ScalarBaseMult (Bytes k)
    let s : Int := 0
    let s := s + d
    let mul := k * w
    let mul := mul * xP
    let s := s + mul
    .ok { xP := xP, yP := yP, S := s, W := w }

/-- The function `CheckIdentity`. -/
def CheckIdentity (signature : Signature) (xH yH : Int) : Option Bool := do
  let (xS, yS) := ScalarBaseMult (Bytes signature.S)
  let mul := signature.W * signature.xP
  let (xP, yP) ← ScalarMult signature.xP signature.yP (Bytes mul)
  let (xR, yR) ← Add xH yH xP yP
  pure (decide (xS = xR) && decide (yS = yR))

/-- The function `GenerateSigningKey`. -/
def GenerateSigningKey (d : Int) (signature : Signature) : Int :=
  d + signature.S

/-- The function `SignMessage`. -/
def SignMessage (message : List UInt8) (l d : Int) : Int :=
  let sum256 : Int := SetBytes (Sum256 message)
  let signed := l * sum256
  signed + d

/-- The function `CheckSignature`. -/
def CheckSignature (message : List UInt8) (xHb yHb xHa yHa : Int) (signed : Int)
    (xP yP : Int) (w : Int) : Option Bool := do
  let (xS, yS) := ScalarBaseMult (Bytes signed)
  let bytes := Sum256 message
  let mul := w * xP
  let (x1, y1) ← ScalarMult xP yP (Bytes mul)
  let (r1, r2) ← Add xHb yHb xHa yHa
  let (r1, r2) ← Add r1 r2 x1 y1
  let (r1, r2) ← ScalarMult r1 r2 bytes
  let (r1, r2) ← Add r1 r2 xHb yHb
  pure (decide (xS = r1) && decide (yS = r2))

/-! ## `io` and `crypto/rand` -/

/-- The errors of a read: `io.EOF`, `io.ErrUnexpectedEOF`, or another error of the source. -/
inductive ReadError (ε : Type) where
  | EOF : ReadError ε
  | ErrUnexpectedEOF : ReadError ε
  | other : ε → ReadError ε

/-- A source of random bytes (an `io.Reader`): the bytes it supplies, and the error it
returns once they are used up. -/
structure Reader (ε : Type) where
  data : List UInt8
  err : ReadError ε

/-- The end of `io.ReadAtLeast` after some, but too few, bytes were read
(`n > 0 && err == EOF`): `io.EOF` becomes `io.ErrUnexpectedEOF`, another error stays. -/
def shortRead {ε : Type} : ReadError ε → ReadError ε
  | .EOF => .ErrUnexpectedEOF
  | err => err

/-- The call `io.ReadFull(rand, buf)` for a buffer of `n` bytes: the bytes read and the rest
of the source; or, when the source ends before `n` bytes, its error if no byte was read, and
otherwise its error with `io.EOF` turned into `io.ErrUnexpectedEOF`. -/
def ReadFull {ε : Type} (rand : Reader ε) (n : Nat) :
    Except (ReadError ε) (List UInt8 × Reader ε) :=
  if n ≤ rand.data.length then .ok (rand.data.take n, ⟨rand.data.drop n, rand.err⟩)
  else if rand.data.length = 0 then .error rand.err
  else .error (shortRead rand.err)

/-- The number of bits of `n`; `fuel` bounds it. -/
def bitLenAux : Nat → Nat → Nat
  | 0, _ => 0
  | fuel + 1, n => if n = 0 then 0 else bitLenAux fuel (n / 2) + 1

/-- The method `(*big.Int).BitLen` on a natural number. -/
def BitLen (n : Nat) : Nat :=
  bitLenAux n n

/-- The statement `bytes[0] &= uint8(int(1<<b) - 1)`. -/
def maskFirst (b : Nat) : List UInt8 → List UInt8
  | [] => []
  | b0 :: rest => (b0 &&& UInt8.ofNat (2 ^ b - 1)) :: rest

/-- The loop of `rand.Int`: candidates of `k` bytes are read until one is below `max`; an
error of `io.ReadFull` ends it.  Every turn uses up `k ≥ 1` bytes of the source, which bounds
the number of turns by `fuel`. -/
def randIntLoop {ε : Type} (max : Int) (k b : Nat) :
    Nat → Reader ε → Except (ReadError ε) Int
  | 0, rand => .error rand.err
  | fuel + 1, rand =>
    match ReadFull rand k with
    | .error err => .error err
    | .ok (bytes, rest) =>
      let n : Int := SetBytes (maskFirst b bytes)
      if n < max then .ok n else randIntLoop max k b fuel rest

/-- The function `rand.Int(rand, max)` for `max > 0` (it panics otherwise, which
`GenerateSignature` never causes: the model returns the error of the source there). -/
def randInt {ε : Type} (rand : Reader ε) (max : Int) : Except (ReadError ε) Int :=
  if max ≤ 0 then .error rand.err
  else
    let bitLen := BitLen (max - 1).toNat
    if bitLen = 0 then .ok 0
    else
      let k := (bitLen + 7) / 8
      let b := if bitLen % 8 = 0 then 8 else bitLen % 8
      randIntLoop max k b (rand.data.length + 1) rand

/-! ## Primality certificates -/

/-- Trial division by the numbers below 300: decides primality of a number below 90000. -/
def smallPrime (n : Nat) : Bool :=
  decide (2 ≤ n) && decide (n < 90000) &&
    (List.range 300).all (fun m => decide (m < 2) || decide (n ≤ m) || decide (n % m ≠ 0))

/-- One step of a Pratt certificate: `a` has order `p - 1` modulo `p`, where `qs` lists the
prime factors of `p - 1` with multiplicity, each of them a small prime or a member of
`known`. -/
def prattStep (known : List Nat) (p a : Nat) (qs : List Nat) : Bool :=
  decide (1 < p) && decide (qs.prod = p - 1) && decide (powMod a (p - 1) p = 1) &&
    qs.all (fun q => (smallPrime q || decide (q ∈ known)) &&
      decide (powMod a ((p - 1) / q) p ≠ 1))

/-- A chain of Pratt certificates `(p, a, qs)`, each resting on the ones before it. -/
def prattChain : List Nat → List (Nat × Nat × List Nat) → Bool
  | _, [] => true
  | known, (p, a, qs) :: rest => prattStep known p a qs && prattChain (p :: known) rest

/-- Pratt certificates for the field prime `p` and the group order `N` of P-256. -/
def p256Certificates : List (Nat × Nat × List Nat) :=
  [
   (78283, 3,
     [2, 3, 3, 4349]),
   (104471, 11,
     [2, 5, 31, 337]),
   (126241, 7,
     [2, 2, 2, 2, 2, 3, 5, 263]),
   (155317, 5,
     [2, 2, 3, 7, 43, 43]),
   (490463, 14,
     [2, 7, 53, 661]),
   (704251, 2,
     [2, 3, 3, 5, 5, 5, 313]),
   (3969899, 2,
     [2, 19, 104471]),
   (6700417, 5,
     [2, 2, 2, 2, 2, 2, 2, 3, 17449]),
   (9350987, 2,
     [2, 17, 229, 1201]),
   (187019741, 2,
     [2, 2, 5, 9350987]),
   (191039911, 3,
     [2, 3, 5, 41, 155317]),
   (204061199, 11,
     [2, 11, 23, 107, 3769]),
   (311245691, 2,
     [2, 5, 7, 17, 29, 29, 311]),
   (622491383, 5,
     [2, 311245691]),
   (34282281433, 17,
     [2, 2, 2, 3, 7, 204061199]),
   (66417393611, 6,
     [2, 5, 53, 173, 197, 3677]),
   (1002328039319, 19,
     [2, 126241, 3969899]),
   (11290956913871, 13,
     [2, 5, 17, 66417393611]),
   (46076956964474543, 5,
     [2, 23, 18169, 78283, 704251]),
   (208150935158385979, 2,
     [2, 3, 11, 43, 127, 3023, 191039911]),
   (2624747550333869278416773953, 7,
     [2, 2, 2, 2, 2, 2, 3, 3, 1297, 16879, 208150935158385979]),
   (774023187263532362759620327192479577272145303, 3,
     [2, 3, 3, 2411, 34282281433, 11290956913871, 46076956964474543]),
   (835945042244614951780389953367877943453916927241, 11,
     [2, 2, 2, 3, 3, 3, 5, 774023187263532362759620327192479577272145303]),
   (115792089210356248762697446949407573529996955224135760342422259061068512044369, 7,
     [2, 2, 2, 2, 3, 71, 131, 373, 3407, 17449, 38189, 187019741, 622491383, 1002328039319, 2624747550333869278416773953]),
   (115792089210356248762697446949407573530086143415290314195533631308867097853951, 6,
     [2, 3, 5, 5, 17, 257, 641, 1531, 65537, 490463, 6700417, 835945042244614951780389953367877943453916927241])]

/-! ## The group of points of P-256 -/

/-- P-256 as a Weierstrass curve over the field of integers modulo `p`. -/
def p256Curve : WeierstrassCurve.Affine (ZMod p256P) :=
  { a₁ := 0, a₂ := 0, a₃ := 0, a₄ := -3, a₆ := (p256B : ZMod p256P) }

/-- Affine coordinates of a point of the group, `(0, 0)` for the point at infinity. -/
def encode : p256Curve.Point → Nat × Nat
  | .zero => (0, 0)
  | @WeierstrassCurve.Affine.Point.some _ _ _ x y _ => (x.val, y.val)

/-- The pair of integers that the curve methods return for a point of the group. -/
def toAffine (A : p256Curve.Point) : Int × Int :=
  pointToAffine (encode A)

/-! ## Polynomials modulo the cubic of the curve

A polynomial `c0 + c1·X + c2·X²` over the base field is a triple of coefficients; products
are reduced with `X³ = 3·X - b`. -/

/-- Product of two polynomials of degree at most two modulo `X³ - 3·X + b`. -/
def cubicMul (u v : Nat × Nat × Nat) : Nat × Nat × Nat :=
  let d0 := u.1 * v.1
  let d1 := u.1 * v.2.1 + u.2.1 * v.1
  let d2 := u.1 * v.2.2 + u.2.1 * v.2.1 + u.2.2 * v.1
  let d3 := u.2.1 * v.2.2 + u.2.2 * v.2.1
  let d4 := u.2.2 * v.2.2
  ((d0 + (p256P - p256B) * d3) % p256P, (d1 + 3 * d3 + (p256P - p256B) * d4) % p256P,
    (d2 + 3 * d4) % p256P)

/-- The power `X ^ e` modulo `X³ - 3·X + b`; `fuel` bounds the number of bits of `e`. -/
def cubicPowAux : Nat → Nat → Nat × Nat × Nat
  | 0, _ => (1, 0, 0)
  | fuel + 1, e =>
    if e = 0 then (1, 0, 0)
    else
      let r := cubicPowAux fuel (e / 2)
      let s := cubicMul r r
      if e % 2 = 1 then cubicMul s (0, 1, 0) else s

/-- Value of a polynomial of degree at most two at a field element. -/
def cubicEval (u : Nat × Nat × Nat) (r : ZMod p256P) : ZMod p256P :=
  (u.1 : ZMod p256P) + (u.2.1 : ZMod p256P) * r + (u.2.2 : ZMod p256P) * r ^ 2

/-! ## Modular exponentiation and primality of the curve constants -/

theorem powModAux_eq (fuel a e m : Nat) (h : e ≤ fuel) : powModAux fuel a e m = a ^ e % m := by
  induction fuel generalizing e with
  | zero =>
    have he : e = 0 := by omega
    subst he
    simp [powModAux]
  | succ n ih =>
    unfold powModAux
    by_cases he : e = 0
    · simp [he]
    · simp only [he, if_false]
      have h2 : e / 2 ≤ n := by omega
      rw [ih (e / 2) h2]
      have hsq : a ^ (e / 2) % m * (a ^ (e / 2) % m) % m = a ^ (2 * (e / 2)) % m := by
        rw [← Nat.mul_mod, ← pow_add, two_mul]
      rw [hsq]
      by_cases ho : e % 2 = 1
      · simp only [ho, if_true]
        rw [Nat.mod_mul_mod, ← pow_succ]
        congr 2
        omega
      · simp only [ho, if_false]
        congr 2
        omega

theorem powMod_eq (a e m : Nat) : powMod a e m = a ^ e % m :=
  powModAux_eq e a e m le_rfl

theorem powMod_cast (a e m : Nat) : ((powMod a e m : Nat) : ZMod m) = (a : ZMod m) ^ e := by
  rw [powMod_eq, ZMod.natCast_mod, Nat.cast_pow]

/-- Lucas test with the prime factors of `p - 1` listed in `qs`. -/
theorem pratt_certificate (p a : Nat) (qs : List Nat) (hp1 : 1 < p) (hprod : qs.prod = p - 1)
    (hprime : ∀ q ∈ qs, Nat.Prime q) (hone : powMod a (p - 1) p = 1)
    (hne : ∀ q ∈ qs, powMod a ((p - 1) / q) p ≠ 1) : Nat.Prime p := by
  refine lucas_primality p (a : ZMod p) ?_ ?_
  · rw [← powMod_cast, hone, Nat.cast_one]
  · intro q hq hdvd
    rw [← hprod] at hdvd
    obtain ⟨r, hr, hqr⟩ := (Prime.dvd_prod_iff hq.prime).1 hdvd
    have hqeq : q = r := (Nat.prime_dvd_prime_iff_eq hq (hprime r hr)).1 hqr
    subst hqeq
    intro hcon
    apply hne q hr
    rw [← powMod_cast] at hcon
    have h1 : ((1 : Nat) : ZMod p) = 1 := Nat.cast_one
    rw [← h1, ZMod.natCast_eq_natCast_iff'] at hcon
    rw [Nat.mod_eq_of_lt (a := 1) hp1, powMod_eq, Nat.mod_mod] at hcon
    rw [powMod_eq]
    exact hcon

theorem smallPrime_sound (n : Nat) (h : smallPrime n = true) : Nat.Prime n := by
  unfold smallPrime at h
  simp only [Bool.and_eq_true, decide_eq_true_eq, List.all_eq_true, List.mem_range,
    Bool.or_eq_true] at h
  obtain ⟨⟨h2, hn⟩, hall⟩ := h
  by_contra hnp
  have hpos : 0 < n := by omega
  have hsq := Nat.minFac_sq_le_self hpos hnp
  have hdvd := Nat.minFac_dvd n
  have hm2 : 2 ≤ n.minFac := (Nat.minFac_prime (by omega)).two_le
  have hlt : n.minFac < 300 := by
    by_contra hge
    have : 300 * 300 ≤ n.minFac ^ 2 := by
      rw [pow_two]
      exact Nat.mul_le_mul (by omega) (by omega)
    omega
  have hmn : n.minFac < n := by
    have : n.minFac * 2 ≤ n.minFac ^ 2 := by
      rw [pow_two]
      exact Nat.mul_le_mul_left _ hm2
    omega
  rcases hall n.minFac hlt with (h1 | h1) | h1
  · omega
  · omega
  · exact h1 (Nat.mod_eq_zero_of_dvd hdvd)

theorem prattStep_sound (known : List Nat) (p a : Nat) (qs : List Nat)
    (hknown : ∀ q ∈ known, Nat.Prime q) (h : prattStep known p a qs = true) : Nat.Prime p := by
  unfold prattStep at h
  simp only [Bool.and_eq_true, decide_eq_true_eq, List.all_eq_true, Bool.or_eq_true] at h
  obtain ⟨⟨⟨hp1, hprod⟩, hone⟩, hall⟩ := h
  refine pratt_certificate p a qs hp1 hprod ?_ hone ?_
  · intro q hq
    rcases (hall q hq).1 with hs | hk
    · exact smallPrime_sound q hs
    · exact hknown q hk
  · intro q hq
    exact (hall q hq).2

theorem prattChain_sound (certs : List (Nat × Nat × List Nat)) (known : List Nat)
    (hknown : ∀ q ∈ known, Nat.Prime q) (h : prattChain known certs = true) :
    ∀ c ∈ certs, Nat.Prime c.1 := by
  induction certs generalizing known with
  | nil =>
    intro c hc
    exact absurd hc (List.not_mem_nil c)
  | cons c rest ih =>
    obtain ⟨p, a, qs⟩ := c
    unfold prattChain at h
    rw [Bool.and_eq_true] at h
    have hp := prattStep_sound known p a qs hknown h.1
    intro c hc
    rcases List.mem_cons.1 hc with rfl | hrest
    · exact hp
    · refine ih (p :: known) ?_ h.2 c hrest
      intro q hq
      rcases List.mem_cons.1 hq with rfl | hq'
      · exact hp
      · exact hknown q hq'

set_option maxRecDepth 1000000 in
theorem prattChain_p256 : prattChain [] p256Certificates = true := by
  decide!

theorem prime_of_prattChain (certs : List (Nat × Nat × List Nat)) (p : Nat)
    (h : prattChain [] certs = true) (hp : certs.any (fun c => decide (c.1 = p)) = true) :
    Nat.Prime p := by
  rw [List.any_eq_true] at hp
  obtain ⟨c, hc, hcp⟩ := hp
  rw [decide_eq_true_eq] at hcp
  rw [← hcp]
  exact prattChain_sound certs [] (fun q hq => absurd hq (List.not_mem_nil q)) h c hc

theorem p256P_prime : Nat.Prime p256P :=
  prime_of_prattChain p256Certificates p256P prattChain_p256 (by decide)

theorem p256N_prime : Nat.Prime p256N :=
  prime_of_prattChain p256Certificates p256N prattChain_p256 (by decide)

open WeierstrassCurve.Affine

instance p256P_fact : Fact (Nat.Prime p256P) := ⟨p256P_prime⟩

instance p256N_fact : Fact (Nat.Prime p256N) := ⟨p256N_prime⟩

/-! ## Arithmetic modulo `p` on natural numbers and in `ZMod p` -/

theorem val_lt_p (a : ZMod p256P) : a.val < p256P := ZMod.val_lt a

theorem val_of_cast {n : Nat} {z : ZMod p256P} (h : ((n : Nat) : ZMod p256P) = z) :
    n % p256P = z.val := by
  rw [← h, ZMod.val_natCast]

theorem cast_p_sub (n : Nat) (h : n ≤ p256P) :
    ((p256P - n : Nat) : ZMod p256P) = -(n : ZMod p256P) := by
  rw [Nat.cast_sub h, ZMod.natCast_self, zero_sub]

theorem fieldInv_cast (a : Nat) : ((fieldInv a : Nat) : ZMod p256P) = (a : ZMod p256P)⁻¹ := by
  unfold fieldInv
  rw [powMod_cast]
  by_cases h : (a : ZMod p256P) = 0
  · rw [h, inv_zero]
    exact zero_pow (by decide)
  · have h1 : (a : ZMod p256P) ^ (p256P - 1) = 1 := ZMod.pow_card_sub_one_eq_one h
    have h2 : (a : ZMod p256P) ^ (p256P - 2) * (a : ZMod p256P) = 1 := by
      rw [← pow_succ]
      exact h1
    exact eq_inv_of_mul_eq_one_left h2

theorem p256B_ne_zero : ((p256B : Nat) : ZMod p256P) ≠ 0 := by
  intro h
  rw [ZMod.natCast_zmod_eq_zero_iff_dvd] at h
  exact absurd h (by decide)

theorem p256Curve_Δ_ne_zero : p256Curve.Δ ≠ 0 := by
  have h : p256Curve.Δ = ((1728 + (p256P - 1) * (432 * (p256B * p256B) % p256P) : Nat) : ZMod p256P) := by
    simp only [WeierstrassCurve.Δ, WeierstrassCurve.b₂, WeierstrassCurve.b₄, WeierstrassCurve.b₆,
      WeierstrassCurve.b₈, p256Curve]
    rw [Nat.cast_add, Nat.cast_mul, ZMod.natCast_mod, Nat.cast_sub (by decide), ZMod.natCast_self]
    push_cast
    ring
  rw [h]
  intro h0
  rw [ZMod.natCast_zmod_eq_zero_iff_dvd] at h0
  exact absurd h0 (by decide)

/-! ## The encoding of points -/

theorem encode_some {x y : ZMod p256P} (h : p256Curve.Nonsingular x y) :
    encode (Point.some h) = (x.val, y.val) := rfl

theorem encode_some_ne {x y : ZMod p256P} (h : p256Curve.Nonsingular x y) :
    encode (Point.some h) ≠ (0, 0) := by
  intro he
  rw [encode_some, Prod.mk.injEq] at he
  have hx : x = 0 := (ZMod.val_eq_zero x).1 he.1
  have hy : y = 0 := (ZMod.val_eq_zero y).1 he.2
  subst hx hy
  have h0 := h.1
  rw [equation_zero] at h0
  exact p256B_ne_zero h0

theorem encode_eq_zero_iff (A : p256Curve.Point) : encode A = (0, 0) ↔ A = 0 := by
  constructor
  · intro h
    rcases A with _ | ⟨hA⟩
    · rfl
    · exact absurd h (encode_some_ne hA)
  · intro h
    rw [h]
    rfl

theorem encode_injective : Function.Injective encode := by
  intro A B h
  rcases A with _ | @⟨x1, y1, h1⟩
  · exact ((encode_eq_zero_iff B).1 h.symm).symm
  · rcases B with _ | @⟨x2, y2, h2⟩
    · exact absurd h (encode_some_ne h1)
    · rw [encode_some, encode_some, Prod.mk.injEq] at h
      have hx : x1 = x2 := ZMod.val_injective _ h.1
      have hy : y1 = y2 := ZMod.val_injective _ h.2
      subst hx hy
      rfl

/-! ## The group law -/

theorem chord_eq (l : Nat) (L X1 Y1 X2 : ZMod p256P) (hl : ((l : Nat) : ZMod p256P) = L) :
    chord l X1.val Y1.val X2.val =
      ((L ^ 2 - X1 - X2).val, (L * (X1 - (L ^ 2 - X1 - X2)) - Y1).val) := by
  have h3 : (l * l + (p256P - X1.val) + (p256P - X2.val)) % p256P = (L ^ 2 - X1 - X2).val := by
    apply val_of_cast
    rw [Nat.cast_add, Nat.cast_add, Nat.cast_mul, cast_p_sub _ (val_lt_p X1).le,
      cast_p_sub _ (val_lt_p X2).le, hl, ZMod.natCast_zmod_val, ZMod.natCast_zmod_val]
    ring
  unfold chord
  simp only [h3]
  congr 1
  apply val_of_cast
  rw [Nat.cast_add, Nat.cast_mul, Nat.cast_add, cast_p_sub _ (val_lt_p _).le,
    cast_p_sub _ (val_lt_p Y1).le, hl, ZMod.natCast_zmod_val, ZMod.natCast_zmod_val,
    ZMod.natCast_zmod_val]
  ring

theorem addX_eq (x1 x2 L : ZMod p256P) : p256Curve.addX x1 x2 L = L ^ 2 - x1 - x2 := by
  simp [addX, p256Curve]

theorem addY_eq (x1 x2 y1 L : ZMod p256P) :
    p256Curve.addY x1 x2 y1 L = L * (x1 - (L ^ 2 - x1 - x2)) - y1 := by
  simp [addY, negAddY, negY, addX, p256Curve]
  ring

theorem negY_eq (x y : ZMod p256P) : p256Curve.negY x y = -y := by
  simp [negY, p256Curve]

theorem sum_mod_eq_zero_iff (y1 y2 : ZMod p256P) :
    (y1.val + y2.val) % p256P = 0 ↔ y1 = -y2 := by
  rw [← Nat.dvd_iff_mod_eq_zero, ← ZMod.natCast_zmod_eq_zero_iff_dvd, Nat.cast_add,
    ZMod.natCast_zmod_val, ZMod.natCast_zmod_val, add_eq_zero_iff_eq_neg]

theorem affineAdd_encode (A B : p256Curve.Point) :
    affineAdd (encode A) (encode B) = encode (A + B) := by
  rcases A with _ | @⟨x1, y1, h1⟩
  · show affineAdd (0, 0) (encode B) = encode (0 + B)
    rw [zero_add]
    simp [affineAdd]
  rcases B with _ | @⟨x2, y2, h2⟩
  · show affineAdd (encode (Point.some h1)) (0, 0) = encode (Point.some h1 + 0)
    rw [add_zero]
    unfold affineAdd
    rw [if_neg (encode_some_ne h1), if_pos rfl]
  · unfold affineAdd
    rw [if_neg (encode_some_ne h1), if_neg (encode_some_ne h2)]
    simp only [encode_some]
    by_cases hx : x1 = x2
    · subst hx
      rw [if_pos rfl]
      by_cases hy : y1 = p256Curve.negY x1 y2
      · have hs : (y1.val + y2.val) % p256P = 0 := by
          rw [sum_mod_eq_zero_iff, ← negY_eq x1 y2]
          exact hy
        rw [if_pos hs, Point.add_of_Y_eq rfl hy]
        rfl
      · have hs : ¬ (y1.val + y2.val) % p256P = 0 := by
          rw [sum_mod_eq_zero_iff, ← negY_eq x1 y2]
          exact hy
        rw [if_neg hs, Point.add_of_Y_ne hy, encode_some, addX_eq, addY_eq]
        apply chord_eq
        rw [slope_of_Y_ne rfl hy, ZMod.natCast_mod, Nat.cast_mul, ZMod.natCast_mod, fieldInv_cast, ZMod.natCast_mod,
          Nat.cast_add, cast_p_sub 3 (by decide), negY_eq, div_eq_mul_inv]
        push_cast
        rw [ZMod.natCast_zmod_val, ZMod.natCast_zmod_val]
        simp only [p256Curve]
        ring
    · have hv : ¬ x1.val = x2.val := fun h => hx (ZMod.val_injective _ h)
      rw [if_neg hv, Point.add_of_X_ne hx, encode_some, addX_eq, addY_eq]
      apply chord_eq
      rw [slope_of_X_ne hx, ZMod.natCast_mod, Nat.cast_mul, ZMod.natCast_mod, fieldInv_cast, ZMod.natCast_mod,
        Nat.cast_add, Nat.cast_add, cast_p_sub _ (val_lt_p _).le, cast_p_sub _ (val_lt_p _).le,
        ZMod.natCast_zmod_val, ZMod.natCast_zmod_val, ZMod.natCast_zmod_val, ZMod.natCast_zmod_val,
        div_eq_mul_inv]
      ring

/-! ## Scalar multiplication -/

theorem scalarMulAux_encode (fuel : Nat) (A : p256Curve.Point) (n : Nat) (h : n ≤ fuel) :
    scalarMulAux fuel n (encode A) = encode (n • A) := by
  induction fuel generalizing n with
  | zero =>
    have hn : n = 0 := by omega
    subst hn
    rw [zero_nsmul]
    rfl
  | succ f ih =>
    unfold scalarMulAux
    by_cases hn : n = 0
    · subst hn
      rw [if_pos rfl, zero_nsmul]
      rfl
    · rw [if_neg hn]
      have h2 : n / 2 ≤ f := by omega
      simp only [ih (n / 2) h2, affineAdd_encode]
      by_cases ho : n % 2 = 1
      · rw [if_pos ho]
        congr 1
        rw [← add_nsmul, ← succ_nsmul]
        congr 1
        omega
      · rw [if_neg ho]
        congr 1
        rw [← add_nsmul]
        congr 1
        omega

theorem scalarMul_encode (n : Nat) (A : p256Curve.Point) :
    scalarMul n (encode A) = encode (n • A) :=
  scalarMulAux_encode n A n le_rfl

/-! ## Points of the curve and their coordinates -/

theorem isOnCurve_iff (x y : Nat) :
    isOnCurve x y = true ↔ p256Curve.Equation (x : ZMod p256P) (y : ZMod p256P) := by
  unfold isOnCurve
  rw [beq_iff_eq, equation_iff, ← ZMod.natCast_eq_natCast_iff']
  simp only [p256Curve]
  rw [Nat.cast_add, Nat.cast_add, Nat.cast_mul, Nat.cast_mul, Nat.cast_mul, Nat.cast_mul,
    cast_p_sub 3 (by decide)]
  constructor
  · intro h
    push_cast at h
    linear_combination h
  · intro h
    push_cast
    linear_combination h

theorem exists_point_of_isOnCurve (x y : Nat) (hx : x < p256P) (hy : y < p256P)
    (h : isOnCurve x y = true) : ∃ A : p256Curve.Point, encode A = (x, y) ∧ A ≠ 0 := by
  have hE := (isOnCurve_iff x y).1 h
  have hN := nonsingular_of_Δ_ne_zero p256Curve hE p256Curve_Δ_ne_zero
  refine ⟨Point.some hN, ?_, Point.some_ne_zero hN⟩
  rw [encode_some, ZMod.val_natCast, ZMod.val_natCast, Nat.mod_eq_of_lt hx, Nat.mod_eq_of_lt hy]

theorem isOnCurve_val {x y : ZMod p256P} (h : p256Curve.Nonsingular x y) :
    isOnCurve x.val y.val = true := by
  rw [isOnCurve_iff, ZMod.natCast_zmod_val, ZMod.natCast_zmod_val]
  exact h.1

theorem p256G_nonsingular :
    p256Curve.Nonsingular ((p256Gx : Nat) : ZMod p256P) ((p256Gy : Nat) : ZMod p256P) :=
  nonsingular_of_Δ_ne_zero p256Curve ((isOnCurve_iff p256Gx p256Gy).1 (by decide))
    p256Curve_Δ_ne_zero

/-- The base point `G` of P-256 as a point of the group. -/
def p256G : p256Curve.Point :=
  Point.some p256G_nonsingular

theorem encode_p256G : encode p256G = (p256Gx, p256Gy) := by
  unfold p256G
  rw [encode_some, ZMod.val_natCast, ZMod.val_natCast, Nat.mod_eq_of_lt (by decide),
    Nat.mod_eq_of_lt (by decide)]

theorem p256G_ne_zero : p256G ≠ 0 :=
  Point.some_ne_zero p256G_nonsingular

set_option maxRecDepth 1000000 in
theorem scalarMul_order : scalarMul p256N (p256Gx, p256Gy) = (0, 0) := by
  decide!

theorem order_nsmul_p256G : p256N • p256G = 0 := by
  rw [← encode_eq_zero_iff, ← scalarMul_encode, encode_p256G]
  exact scalarMul_order

theorem addOrderOf_p256G : addOrderOf p256G = p256N :=
  addOrderOf_eq_prime order_nsmul_p256G p256G_ne_zero

theorem zsmul_p256G_eq_zero_iff (z : Int) : z • p256G = 0 ↔ (p256N : Int) ∣ z := by
  rw [← addOrderOf_p256G, addOrderOf_dvd_iff_zsmul_eq_zero]

theorem zsmul_p256G_eq_iff (a b : Int) : a • p256G = b • p256G ↔ (p256N : Int) ∣ a - b := by
  rw [← zsmul_p256G_eq_zero_iff, sub_zsmul, add_neg_eq_zero]

theorem mod_nsmul_p256G (n : Nat) : (n % p256N) • p256G = n • p256G := by
  conv_rhs => rw [← Nat.mod_add_div n p256N]
  rw [add_nsmul, mul_nsmul, order_nsmul_p256G, nsmul_zero, add_zero]

/-! ## Byte slices -/

theorem foldl_bytes (l : List UInt8) (a : Nat) :
    l.foldl (fun acc b => acc * 256 + b.toNat) a = a * 256 ^ l.length + SetBytes l := by
  induction l generalizing a with
  | nil => simp [SetBytes]
  | cons b t ih =>
    unfold SetBytes
    rw [List.foldl_cons, List.foldl_cons, ih, ih (0 * 256 + b.toNat), List.length_cons]
    ring

theorem SetBytes_cons (b : UInt8) (t : List UInt8) :
    SetBytes (b :: t) = b.toNat * 256 ^ t.length + SetBytes t := by
  unfold SetBytes
  rw [List.foldl_cons, foldl_bytes, zero_mul, zero_add]
  rfl

theorem SetBytes_lt (l : List UInt8) : SetBytes l < 256 ^ l.length := by
  induction l with
  | nil => simp [SetBytes]
  | cons b t ih =>
    rw [SetBytes_cons, List.length_cons, pow_succ]
    have hb : b.toNat < 256 := UInt8.toNat_lt_size b
    nlinarith

theorem SetBytes_natBytesAux (fuel n : Nat) (acc : List UInt8) (h : n ≤ fuel) :
    SetBytes (natBytesAux fuel n acc) = n * 256 ^ acc.length + SetBytes acc := by
  induction fuel generalizing n acc with
  | zero =>
    have hn : n = 0 := by omega
    subst hn
    simp [natBytesAux]
  | succ f ih =>
    unfold natBytesAux
    by_cases hn : n = 0
    · subst hn
      simp
    · rw [if_neg hn, ih (n / 256) _ (by omega), SetBytes_cons, List.length_cons,
        UInt8.toNat_ofNat_of_lt (Nat.mod_lt n (by decide)), pow_succ]
      have h1 : n / 256 * 256 + n % 256 = n := Nat.div_add_mod' n 256
      have h2 : UInt8.size = 256 := rfl
      rw [h2]
      conv_rhs => rw [← h1]
      ring

theorem SetBytes_Bytes (x : Int) : SetBytes (Bytes x) = x.natAbs := by
  unfold Bytes
  rw [SetBytes_natBytesAux _ _ _ le_rfl]
  simp [SetBytes]

theorem length_le_natBytesAux (fuel n : Nat) (acc : List UInt8) :
    acc.length ≤ (natBytesAux fuel n acc).length := by
  induction fuel generalizing n acc with
  | zero => simp [natBytesAux]
  | succ f ih =>
    unfold natBytesAux
    by_cases hn : n = 0
    · simp [hn]
    · rw [if_neg hn]
      refine le_trans ?_ (ih (n / 256) _)
      simp

theorem length_natBytesAux_le (fuel n : Nat) (acc : List UInt8) (k : Nat) (h : n ≤ fuel) :
    (natBytesAux fuel n acc).length ≤ k + acc.length ↔ n < 256 ^ k := by
  induction fuel generalizing n acc k with
  | zero =>
    have hn : n = 0 := by omega
    subst hn
    simp [natBytesAux]
  | succ f ih =>
    unfold natBytesAux
    by_cases hn : n = 0
    · subst hn
      simp
    · rw [if_neg hn]
      cases k with
      | zero =>
        have h1 := length_le_natBytesAux f (n / 256) (UInt8.ofNat (n % 256) :: acc)
        rw [List.length_cons] at h1
        constructor
        · intro h2
          omega
        · intro h2
          simp at h2
          omega
      | succ k =>
        have h2 := ih (n / 256) (UInt8.ofNat (n % 256) :: acc) k (by omega)
        rw [List.length_cons] at h2
        rw [show k + 1 + acc.length = k + (acc.length + 1) by omega, h2, pow_succ,
          Nat.div_lt_iff_lt_mul (by decide)]

theorem length_Bytes_le (x : Int) (k : Nat) : (Bytes x).length ≤ k ↔ x.natAbs < 256 ^ k := by
  unfold Bytes
  have h := length_natBytesAux_le x.natAbs x.natAbs [] k le_rfl
  simpa using h

theorem length_Sum256 (data : List UInt8) : (Sum256 data).length = 32 := by
  simp [Sum256, word32Bytes]

theorem SetBytes_Sum256_lt (data : List UInt8) : SetBytes (Sum256 data) < 2 ^ 256 := by
  have h := SetBytes_lt (Sum256 data)
  rw [length_Sum256] at h
  exact lt_of_lt_of_eq h (by norm_num)

theorem normalizeScalar_Sum256 (data : List UInt8) :
    normalizeScalar (Sum256 data) = SetBytes (Sum256 data) := by
  unfold normalizeScalar
  rw [if_pos (length_Sum256 data)]

theorem normalizeScalar_Bytes (x : Int) :
    normalizeScalar (Bytes x) = if x.natAbs < 2 ^ 256 then x.natAbs else x.natAbs % p256N := by
  unfold normalizeScalar
  have h := length_Bytes_le x 32
  rw [show (256 : Nat) ^ 32 = 2 ^ 256 by norm_num] at h
  rw [SetBytes_Bytes]
  by_cases hx : x.natAbs < 2 ^ 256
  · rw [if_pos hx]
    have hl := h.2 hx
    by_cases h32 : (Bytes x).length = 32
    · rw [if_pos h32]
    · rw [if_neg h32, if_neg (by omega)]
  · rw [if_neg hx]
    have hl : ¬ (Bytes x).length ≤ 32 := fun hle => hx (h.1 hle)
    rw [if_neg (by omega), if_pos (by omega)]

theorem normalizeScalar_Bytes_nsmul (x : Int) :
    normalizeScalar (Bytes x) • p256G = x.natAbs • p256G := by
  rw [normalizeScalar_Bytes]
  by_cases hx : x.natAbs < 2 ^ 256
  · rw [if_pos hx]
  · rw [if_neg hx, mod_nsmul_p256G]

/-! ## The curve methods on points of the group -/

theorem toAffine_zero : toAffine 0 = (0, 0) := rfl

theorem toAffine_injective : Function.Injective toAffine := by
  intro A B h
  apply encode_injective
  unfold toAffine pointToAffine at h
  rw [Prod.mk.injEq] at h
  exact Prod.ext (Int.ofNat_inj.1 h.1) (Int.ofNat_inj.1 h.2)

theorem toAffine_eq_iff (A B : p256Curve.Point) : toAffine A = toAffine B ↔ A = B :=
  toAffine_injective.eq_iff

theorem pointFromAffine_toAffine (A : p256Curve.Point) :
    pointFromAffine (toAffine A).1 (toAffine A).2 = some (encode A) := by
  rcases A with _ | @⟨x, y, h⟩
  · rfl
  · have hne := encode_some_ne h
    rw [encode_some] at hne
    have hx := val_lt_p x
    have hy := val_lt_p y
    have hp : p256P < 2 ^ 256 := by decide
    unfold pointFromAffine toAffine pointToAffine
    rw [encode_some]
    simp only [Int.toNat_ofNat]
    rw [if_neg, if_neg, if_neg, if_pos]
    · exact ⟨hx, hy, isOnCurve_val h⟩
    · intro hc
      rcases hc with hc | hc
      · have : (2 : Int) ^ 256 = ((2 ^ 256 : Nat) : Int) := by norm_num
        rw [this] at hc
        have := Int.ofNat_le.1 hc
        omega
      · have : (2 : Int) ^ 256 = ((2 ^ 256 : Nat) : Int) := by norm_num
        rw [this] at hc
        have := Int.ofNat_le.1 hc
        omega
    · intro hc
      rcases hc with hc | hc
      · omega
      · omega
    · intro hc
      apply hne
      rw [Prod.mk.injEq]
      exact ⟨Int.ofNat_eq_zero.1 hc.1, Int.ofNat_eq_zero.1 hc.2⟩

theorem pointFromAffine_eq_some {x y : Int} {q : Nat × Nat} (h : pointFromAffine x y = some q) :
    ∃ A : p256Curve.Point, (x, y) = toAffine A ∧ q = encode A := by
  unfold pointFromAffine at h
  split_ifs at h with h1 h2 h3 h4
  · refine ⟨0, ?_, ?_⟩
    · rw [h1.1, h1.2]
      rfl
    · exact (Option.some.inj h).symm
  · obtain ⟨A, hA, -⟩ := exists_point_of_isOnCurve x.toNat y.toNat h4.1 h4.2.1 h4.2.2
    refine ⟨A, ?_, ?_⟩
    · unfold toAffine pointToAffine
      rw [hA]
      simp only
      rw [Int.toNat_of_nonneg (by omega), Int.toNat_of_nonneg (by omega)]
    · rw [hA]
      exact (Option.some.inj h).symm

theorem ScalarBaseMult_eq (scalar : List UInt8) :
    ScalarBaseMult scalar = toAffine (normalizeScalar scalar • p256G) := by
  unfold ScalarBaseMult toAffine
  rw [← encode_p256G, scalarMul_encode]

theorem ScalarBaseMult_Bytes (x : Int) :
    ScalarBaseMult (Bytes x) = toAffine (x.natAbs • p256G) := by
  rw [ScalarBaseMult_eq, normalizeScalar_Bytes_nsmul]

theorem ScalarMult_toAffine (A : p256Curve.Point) (scalar : List UInt8) :
    ScalarMult (toAffine A).1 (toAffine A).2 scalar =
      some (toAffine (normalizeScalar scalar • A)) := by
  unfold ScalarMult
  rw [pointFromAffine_toAffine]
  simp only [Option.bind_eq_bind, Option.some_bind, Option.pure_def]
  rw [scalarMul_encode]
  rfl

theorem Add_toAffine (A B : p256Curve.Point) :
    Add (toAffine A).1 (toAffine A).2 (toAffine B).1 (toAffine B).2 = some (toAffine (A + B)) := by
  unfold Add
  rw [pointFromAffine_toAffine, pointFromAffine_toAffine]
  simp only [Option.bind_eq_bind, Option.some_bind, Option.pure_def]
  rw [affineAdd_encode]
  rfl

theorem ScalarMult_eq_some {x y : Int} {scalar : List UInt8} {r : Int × Int}
    (h : ScalarMult x y scalar = some r) :
    ∃ A : p256Curve.Point, (x, y) = toAffine A ∧ r = toAffine (normalizeScalar scalar • A) := by
  unfold ScalarMult at h
  cases hp : pointFromAffine x y with
  | none =>
    rw [hp] at h
    simp at h
  | some q =>
    obtain ⟨A, hA, -⟩ := pointFromAffine_eq_some hp
    refine ⟨A, hA, ?_⟩
    have h2 := ScalarMult_toAffine A scalar
    rw [← hA] at h2
    unfold ScalarMult at h2
    rw [h] at h2
    exact Option.some.inj h2

theorem Add_eq_some {x1 y1 x2 y2 : Int} {r : Int × Int} (h : Add x1 y1 x2 y2 = some r) :
    ∃ A B : p256Curve.Point, (x1, y1) = toAffine A ∧ (x2, y2) = toAffine B ∧
      r = toAffine (A + B) := by
  unfold Add at h
  cases hp : pointFromAffine x1 y1 with
  | none =>
    rw [hp] at h
    simp at h
  | some q1 =>
    cases hq : pointFromAffine x2 y2 with
    | none =>
      rw [hp, hq] at h
      simp at h
    | some q2 =>
      obtain ⟨A, hA, -⟩ := pointFromAffine_eq_some hp
      obtain ⟨B, hB, -⟩ := pointFromAffine_eq_some hq
      refine ⟨A, B, hA, hB, ?_⟩
      have h2 := Add_toAffine A B
      rw [← hA, ← hB] at h2
      unfold Add at h2
      rw [h] at h2
      exact Option.some.inj h2

/-! ## The cubic `X³ - 3·X + b` has no root modulo `p` -/

theorem cubicEval_mul (u v : Nat × Nat × Nat) (r : ZMod p256P)
    (hr : r ^ 3 - 3 * r + (p256B : ZMod p256P) = 0) :
    cubicEval (cubicMul u v) r = cubicEval u r * cubicEval v r := by
  obtain ⟨u0, u1, u2⟩ := u
  obtain ⟨v0, v1, v2⟩ := v
  unfold cubicEval cubicMul
  simp only [ZMod.natCast_mod]
  push_cast [cast_p_sub p256B (by decide)]
  linear_combination
    (-((u1 : ZMod p256P) * v2 + u2 * v1) - (u2 : ZMod p256P) * v2 * r) * hr

theorem cubicEval_pow (fuel e : Nat) (h : e ≤ fuel) (r : ZMod p256P)
    (hr : r ^ 3 - 3 * r + (p256B : ZMod p256P) = 0) :
    cubicEval (cubicPowAux fuel e) r = r ^ e := by
  induction fuel generalizing e with
  | zero =>
    have he : e = 0 := by omega
    subst he
    simp [cubicPowAux, cubicEval]
  | succ f ih =>
    unfold cubicPowAux
    by_cases he : e = 0
    · subst he
      simp [cubicEval]
    · rw [if_neg he]
      have h2 : e / 2 ≤ f := by omega
      have hx : cubicEval (0, 1, 0) r = r := by simp [cubicEval]
      by_cases ho : e % 2 = 1
      · simp only [ho, if_true]
        rw [cubicEval_mul _ _ r hr, cubicEval_mul _ _ r hr, ih (e / 2) h2, hx, ← pow_add,
          ← pow_succ]
        congr 1
        omega
      · simp only [ho, if_false]
        rw [cubicEval_mul _ _ r hr, ih (e / 2) h2, ← pow_add]
        congr 1
        omega

set_option maxRecDepth 1000000 in
theorem cubicPow_p256P : cubicPowAux p256P p256P =
    (66434390973925144466073271287821796038003695194169110494110089305650096453661,
     12402202686218762177567235911775779164004716598278868847786114277539554646092,
     24678849118215552148312087830792888746041224110560601850711771001608500700145) := by
  decide!

theorem bezout_absurd {R : Type} [CommRing R] (u0 u1 v0 v1 v2 q0 q1 q2 t b r : R)
    (c0 : u0 * b + v0 * q0 = 1) (c1 : u1 * b + t * u0 + v0 * q1 + v1 * q0 = 0)
    (c2 : t * u1 + v0 * q2 + v1 * q1 + v2 * q0 = 0) (c3 : u0 + v1 * q2 + v2 * q1 = 0)
    (c4 : u1 + v2 * q2 = 0) (hf : r ^ 3 + t * r + b = 0) (hq : q0 + q1 * r + q2 * r ^ 2 = 0) :
    (1 : R) = 0 := by
  linear_combination (u0 + u1 * r) * hf + (v0 + v1 * r + v2 * r ^ 2) * hq - c0 - r * c1 -
    r ^ 2 * c2 - r ^ 3 * c3 - r ^ 4 * c4

theorem natCast_eq_zero_of_mod {n : Nat} (h : n % p256P = 0) : ((n : Nat) : ZMod p256P) = 0 := by
  rw [ZMod.natCast_zmod_eq_zero_iff_dvd]
  exact Nat.dvd_of_mod_eq_zero h

theorem cubic_ne_zero (r : ZMod p256P) : r ^ 3 - 3 * r + (p256B : ZMod p256P) ≠ 0 := by
  intro hr
  have hpow := cubicEval_pow p256P p256P le_rfl r hr
  rw [cubicPow_p256P, ZMod.pow_card] at hpow
  unfold cubicEval at hpow
  simp only at hpow
  have hq : ((66434390973925144466073271287821796038003695194169110494110089305650096453661 : Nat) : ZMod p256P) +
      ((12402202686218762177567235911775779164004716598278868847786114277539554646091 : Nat) : ZMod p256P) * r +
      ((24678849118215552148312087830792888746041224110560601850711771001608500700145 : Nat) : ZMod p256P) * r ^ 2 = 0 := by
    have h1 : ((12402202686218762177567235911775779164004716598278868847786114277539554646092 : Nat) : ZMod p256P) =
        ((12402202686218762177567235911775779164004716598278868847786114277539554646091 : Nat) : ZMod p256P) + 1 := by
      norm_num
    rw [h1] at hpow
    linear_combination hpow
  have hf : r ^ 3 + ((p256P - 3 : Nat) : ZMod p256P) * r + ((p256B : Nat) : ZMod p256P) = 0 := by
    rw [cast_p_sub 3 (by decide)]
    push_cast
    linear_combination hr
  have h10 : (1 : ZMod p256P) = 0 :=
    bezout_absurd
      ((107286402702237026811154678719514266289498743974321057492273529440068429825344 : Nat) : ZMod p256P)
      ((6389611969556882025875921584714237703390037729321797349080302270353162149340 : Nat) : ZMod p256P)
      ((76626890310466861426869089647039036757962535851890885406097439786770458211455 : Nat) : ZMod p256P)
      ((74462945259064871768191128030512052509059297803194871526163573358218695456204 : Nat) : ZMod p256P)
      ((34768139465301476436978405170953382516735956999154666452188405812258086013549 : Nat) : ZMod p256P)
      _ _ _ _ _ r
      (by
        have h : ((107286402702237026811154678719514266289498743974321057492273529440068429825344 * p256B +
          76626890310466861426869089647039036757962535851890885406097439786770458211455 *
          66434390973925144466073271287821796038003695194169110494110089305650096453661 + (p256P - 1) : Nat) : ZMod p256P) = 0 :=
          natCast_eq_zero_of_mod (by decide)
        rw [Nat.cast_add, cast_p_sub 1 (by decide)] at h
        push_cast at h
        linear_combination h)
      (by
        have h := natCast_eq_zero_of_mod (n := 6389611969556882025875921584714237703390037729321797349080302270353162149340 * p256B +
          (p256P - 3) * 107286402702237026811154678719514266289498743974321057492273529440068429825344 +
          76626890310466861426869089647039036757962535851890885406097439786770458211455 *
          12402202686218762177567235911775779164004716598278868847786114277539554646091 +
          74462945259064871768191128030512052509059297803194871526163573358218695456204 *
          66434390973925144466073271287821796038003695194169110494110089305650096453661) (by decide)
        rw [Nat.cast_add, Nat.cast_add, Nat.cast_add, Nat.cast_mul, Nat.cast_mul, Nat.cast_mul,
          Nat.cast_mul] at h
        exact h)
      (by
        have h := natCast_eq_zero_of_mod (n := (p256P - 3) * 6389611969556882025875921584714237703390037729321797349080302270353162149340 +
          76626890310466861426869089647039036757962535851890885406097439786770458211455 *
          24678849118215552148312087830792888746041224110560601850711771001608500700145 +
          74462945259064871768191128030512052509059297803194871526163573358218695456204 *
          12402202686218762177567235911775779164004716598278868847786114277539554646091 +
          34768139465301476436978405170953382516735956999154666452188405812258086013549 *
          66434390973925144466073271287821796038003695194169110494110089305650096453661) (by decide)
        rw [Nat.cast_add, Nat.cast_add, Nat.cast_add, Nat.cast_mul, Nat.cast_mul, Nat.cast_mul,
          Nat.cast_mul] at h
        exact h)
      (by
        have h := natCast_eq_zero_of_mod (n := 107286402702237026811154678719514266289498743974321057492273529440068429825344 +
          74462945259064871768191128030512052509059297803194871526163573358218695456204 *
          24678849118215552148312087830792888746041224110560601850711771001608500700145 +
          34768139465301476436978405170953382516735956999154666452188405812258086013549 *
          12402202686218762177567235911775779164004716598278868847786114277539554646091) (by decide)
        rw [Nat.cast_add, Nat.cast_add, Nat.cast_mul, Nat.cast_mul] at h
        exact h)
      (by
        have h := natCast_eq_zero_of_mod (n := 6389611969556882025875921584714237703390037729321797349080302270353162149340 +
          34768139465301476436978405170953382516735956999154666452188405812258086013549 *
          24678849118215552148312087830792888746041224110560601850711771001608500700145) (by decide)
        rw [Nat.cast_add, Nat.cast_mul] at h
        exact h)
      hf hq
  exact one_ne_zero h10

/-! ## The order of the group -/

/-- The abscissa of a point and the half of the field its ordinate lies in. -/
def pointKey : p256Curve.Point → Option (ZMod p256P × Bool)
  | .zero => none
  | @WeierstrassCurve.Affine.Point.some _ _ _ x y _ => some (x, decide (y.val ≤ (p256P - 1) / 2))

theorem pointKey_injective : Function.Injective pointKey := by
  intro A B h
  rcases A with _ | @⟨x1, y1, h1⟩
  · rcases B with _ | @⟨x2, y2, h2⟩
    · rfl
    · simp [pointKey] at h
  · rcases B with _ | @⟨x2, y2, h2⟩
    · simp [pointKey] at h
    · simp only [pointKey, Option.some.injEq, Prod.mk.injEq] at h
      obtain ⟨hx, hb⟩ := h
      subst hx
      have e1 := (equation_iff p256Curve x1 y1).1 h1.1
      have e2 := (equation_iff p256Curve x1 y2).1 h2.1
      simp only [p256Curve] at e1 e2
      have hsq : (y1 - y2) * (y1 + y2) = 0 := by linear_combination e1 - e2
      rcases mul_eq_zero.1 hsq with hy | hy
      · have hy' : y1 = y2 := sub_eq_zero.1 hy
        subst hy'
        rfl
      · have hy' : y1 = -y2 := add_eq_zero_iff_eq_neg.1 hy
        by_cases h0 : y2 = 0
        · subst h0
          rw [neg_zero] at hy'
          subst hy'
          rfl
        · exfalso
          have hv : y1.val = p256P - y2.val := by
            rw [hy', ZMod.neg_val, if_neg h0]
          have hlt := val_lt_p y2
          have hpos : 0 < y2.val := by
            rcases Nat.eq_zero_or_pos y2.val with hz | hz
            · exact absurd ((ZMod.val_eq_zero y2).1 hz) h0
            · exact hz
          have hb' := decide_eq_decide.1 hb
          rw [hv] at hb'
          unfold p256P at hb' hlt
          omega

theorem card_point_le : Nat.card p256Curve.Point ≤ 2 * p256P + 1 := by
  have h := Nat.card_le_card_of_injective pointKey pointKey_injective
  have hc : Nat.card (Option (ZMod p256P × Bool)) = 2 * p256P + 1 := by
    rw [Nat.card_eq_fintype_card, Fintype.card_option, Fintype.card_prod, ZMod.card,
      Fintype.card_bool]
    ring
  rw [hc] at h
  exact h

instance point_finite : Finite p256Curve.Point :=
  Finite.of_injective pointKey pointKey_injective

theorem two_nsmul_ne_zero (A : p256Curve.Point) (hA : A ≠ 0) : 2 • A ≠ 0 := by
  rcases A with _ | @⟨x, y, h⟩
  · exact absurd rfl hA
  · intro h2
    rw [two_nsmul] at h2
    by_cases hy : y = p256Curve.negY x y
    · rw [negY_eq] at hy
      have h2y : (2 : ZMod p256P) * y = 0 := by linear_combination hy
      have h2ne : (2 : ZMod p256P) ≠ 0 := by
        have : ((2 : Nat) : ZMod p256P) ≠ 0 := by
          rw [Ne, ZMod.natCast_zmod_eq_zero_iff_dvd]
          decide
        exact_mod_cast this
      have hy0 : y = 0 := (mul_eq_zero.1 h2y).resolve_left h2ne
      subst hy0
      have e1 := (equation_iff p256Curve x 0).1 h.1
      simp only [p256Curve] at e1
      apply cubic_ne_zero x
      linear_combination -e1
    · rw [Point.add_self_of_Y_ne hy] at h2
      exact Point.some_ne_zero _ h2

theorem card_point : Nat.card p256Curve.Point = p256N := by
  have hdvd : p256N ∣ Nat.card p256Curve.Point := by
    rw [← addOrderOf_p256G]
    exact addOrderOf_dvd_natCard p256G
  obtain ⟨m, hm⟩ := hdvd
  have hle := card_point_le
  have hpos : 0 < Nat.card p256Curve.Point := Nat.card_pos
  have hm12 : m = 1 ∨ m = 2 := by
    rw [hm] at hle hpos
    unfold p256N at hle hpos
    unfold p256P at hle
    omega
  rcases hm12 with h1 | h2
  · rw [hm, h1, mul_one]
  · exfalso
    have h2dvd : 2 ∣ Nat.card p256Curve.Point := by
      rw [hm, h2]
      exact Dvd.intro_left _ rfl
    haveI : Fintype p256Curve.Point := Fintype.ofFinite _
    rw [Nat.card_eq_fintype_card] at h2dvd
    haveI : Fact (Nat.Prime 2) := ⟨Nat.prime_two⟩
    obtain ⟨A, hA⟩ := exists_prime_addOrderOf_dvd_card 2 h2dvd
    have hA0 : A ≠ 0 := by
      intro h0
      rw [h0, addOrderOf_zero] at hA
      omega
    apply two_nsmul_ne_zero A hA0
    rw [← hA]
    exact addOrderOf_nsmul_eq_zero A

theorem order_nsmul (A : p256Curve.Point) : p256N • A = 0 := by
  rw [← card_point]
  exact card_nsmul_eq_zero'

theorem mod_nsmul (n : Nat) (A : p256Curve.Point) : (n % p256N) • A = n • A := by
  conv_rhs => rw [← Nat.mod_add_div n p256N]
  rw [add_nsmul, mul_nsmul, order_nsmul, nsmul_zero, add_zero]

theorem exists_nsmul_p256G (A : p256Curve.Point) : ∃ a : Nat, a < p256N ∧ A = a • p256G := by
  have hmem : A ∈ AddSubmonoid.multiples p256G :=
    mem_multiples_of_prime_card card_point p256G_ne_zero
  obtain ⟨n, hn⟩ := (AddSubmonoid.mem_multiples_iff _ _).1 hmem
  refine ⟨n % p256N, Nat.mod_lt n (by decide), ?_⟩
  rw [mod_nsmul, hn]

/-! ## The five operations on points of the group -/

theorem normalizeScalar_Bytes_nsmul_point (x : Int) (A : p256Curve.Point) :
    normalizeScalar (Bytes x) • A = x.natAbs • A := by
  rw [normalizeScalar_Bytes]
  by_cases hx : x.natAbs < 2 ^ 256
  · rw [if_pos hx]
  · rw [if_neg hx, mod_nsmul]

theorem pair_eq_decide (u v : Int × Int) :
    (decide (u.1 = v.1) && decide (u.2 = v.2)) = decide (u = v) := by
  rw [← Bool.decide_and]
  exact decide_eq_decide.2 Prod.ext_iff.symm

theorem exists_point_of_valid {x y : Int} (h : (pointFromAffine x y).isSome = true) :
    ∃ A : p256Curve.Point, (x, y) = toAffine A := by
  obtain ⟨q, hq⟩ := Option.isSome_iff_exists.1 h
  obtain ⟨A, hA, -⟩ := pointFromAffine_eq_some hq
  exact ⟨A, hA⟩

theorem CheckIdentity_toAffine (P A : p256Curve.Point) (S W : Int) :
    CheckIdentity ⟨(toAffine P).1, (toAffine P).2, S, W⟩ (toAffine A).1 (toAffine A).2 =
      some (decide (toAffine (S.natAbs • p256G) =
        toAffine (A + (W * (toAffine P).1).natAbs • P))) := by
  unfold CheckIdentity
  simp only [ScalarBaseMult_Bytes, ScalarMult_toAffine, Add_toAffine, Option.bind_eq_bind,
    Option.some_bind, Option.pure_def, normalizeScalar_Bytes_nsmul_point, pair_eq_decide]

theorem CheckSignature_toAffine (m : List UInt8) (B A P : p256Curve.Point) (signed w : Int) :
    CheckSignature m (toAffine B).1 (toAffine B).2 (toAffine A).1 (toAffine A).2 signed
      (toAffine P).1 (toAffine P).2 w =
      some (decide (toAffine (signed.natAbs • p256G) =
        toAffine (SetBytes (Sum256 m) • (B + A + (w * (toAffine P).1).natAbs • P) + B))) := by
  unfold CheckSignature
  simp only [ScalarBaseMult_Bytes, ScalarMult_toAffine, Add_toAffine, Option.bind_eq_bind,
    Option.some_bind, Option.pure_def, normalizeScalar_Bytes_nsmul_point, pair_eq_decide,
    normalizeScalar_Sum256]

theorem CheckIdentity_eq_some {sig : Signature} {xH yH : Int} {b : Bool}
    (h : CheckIdentity sig xH yH = some b) :
    ∃ P A : p256Curve.Point, (sig.xP, sig.yP) = toAffine P ∧ (xH, yH) = toAffine A := by
  unfold CheckIdentity at h
  simp only [Option.bind_eq_bind, Option.pure_def] at h
  cases h1 : ScalarMult sig.xP sig.yP (Bytes (sig.W * sig.xP)) with
  | none =>
    rw [h1] at h
    simp at h
  | some r =>
    rw [h1] at h
    simp only [Option.some_bind] at h
    cases h2 : Add xH yH r.1 r.2 with
    | none =>
      rw [h2] at h
      simp at h
    | some r2 =>
      obtain ⟨P, hP, -⟩ := ScalarMult_eq_some h1
      obtain ⟨A, -, hA, -, -⟩ := Add_eq_some h2
      exact ⟨P, A, hP, hA⟩

theorem CheckSignature_eq_some {m : List UInt8} {xHb yHb xHa yHa signed xP yP w : Int} {b : Bool}
    (h : CheckSignature m xHb yHb xHa yHa signed xP yP w = some b) :
    ∃ B A P : p256Curve.Point, (xHb, yHb) = toAffine B ∧ (xHa, yHa) = toAffine A ∧
      (xP, yP) = toAffine P := by
  unfold CheckSignature at h
  simp only [Option.bind_eq_bind, Option.pure_def] at h
  cases h1 : ScalarMult xP yP (Bytes (w * xP)) with
  | none =>
    rw [h1] at h
    simp at h
  | some r =>
    rw [h1] at h
    simp only [Option.some_bind] at h
    cases h2 : Add xHb yHb xHa yHa with
    | none =>
      rw [h2] at h
      simp at h
    | some r2 =>
      obtain ⟨P, hP, -⟩ := ScalarMult_eq_some h1
      obtain ⟨B, A, hB, hA, -⟩ := Add_eq_some h2
      exact ⟨B, A, P, hB, hA, hP⟩

theorem GenerateSignature_ok {ε : Type} (randInt : Int → Except ε Int) (d w k : Int)
    (hk : randInt (2 ^ 130 - 1) = Except.ok k) :
    GenerateSignature randInt d w = Except.ok
      { xP := (toAffine (k.natAbs • p256G)).1, yP := (toAffine (k.natAbs • p256G)).2,
        S := d + k * w * (toAffine (k.natAbs • p256G)).1, W := w } := by
  unfold GenerateSignature
  simp only [hk, ScalarBaseMult_Bytes, zero_add]

theorem toAffine_fst_nonneg (A : p256Curve.Point) : 0 ≤ (toAffine A).1 := by
  unfold toAffine pointToAffine
  exact Int.ofNat_nonneg _

/-! ## Multiples of the base point -/

theorem natAbs_nsmul (z : Int) (hz : 0 ≤ z) (A : p256Curve.Point) : z.natAbs • A = z • A := by
  rw [← natCast_zsmul, Int.natAbs_of_nonneg hz]

/-! ## The checks as congruences modulo `N` -/

theorem toAffine_p256G : toAffine p256G = ((p256Gx : Int), (p256Gy : Int)) := by
  unfold toAffine pointToAffine
  rw [encode_p256G]

theorem ScalarBaseMult_one : ScalarBaseMult (Bytes 1) = ((p256Gx : Int), (p256Gy : Int)) := by
  rw [ScalarBaseMult_Bytes, ← toAffine_p256G]
  simp

theorem ScalarBaseMult_zero : ScalarBaseMult (Bytes 0) = (0, 0) := by
  rw [ScalarBaseMult_Bytes, Int.natAbs_zero, zero_nsmul]
  rfl

theorem decide_zsmul_eq (a b : Int) :
    decide (toAffine (a • p256G) = toAffine (b • p256G)) = decide ((p256N : Int) ∣ a - b) := by
  apply decide_eq_decide.2
  rw [toAffine_eq_iff, zsmul_p256G_eq_iff]

/-- `CheckIdentity` on a warrant point `p · G` and a public point `a · G`. -/
theorem CheckIdentity_multiples (p a S W : Int) :
    CheckIdentity ⟨(toAffine (p • p256G)).1, (toAffine (p • p256G)).2, S, W⟩
      (toAffine (a • p256G)).1 (toAffine (a • p256G)).2 =
      some (decide ((p256N : Int) ∣
        (S.natAbs : Int) - (a + ((W * (toAffine (p • p256G)).1).natAbs : Int) * p))) := by
  rw [CheckIdentity_toAffine, ← decide_zsmul_eq, natCast_zsmul, add_zsmul, mul_zsmul,
    natCast_zsmul]

/-- `CheckSignature` on public points `b · G` and `a · G` and a warrant point `p · G`. -/
theorem CheckSignature_multiples (m : List UInt8) (b a p signed w : Int) :
    CheckSignature m (toAffine (b • p256G)).1 (toAffine (b • p256G)).2
      (toAffine (a • p256G)).1 (toAffine (a • p256G)).2 signed
      (toAffine (p • p256G)).1 (toAffine (p • p256G)).2 w =
      some (decide ((p256N : Int) ∣ (signed.natAbs : Int) -
        ((SetBytes (Sum256 m) : Int) *
          (b + a + ((w * (toAffine (p • p256G)).1).natAbs : Int) * p) + b))) := by
  rw [CheckSignature_toAffine, ← decide_zsmul_eq, natCast_zsmul, add_zsmul, mul_zsmul,
    add_zsmul, add_zsmul, mul_zsmul, natCast_zsmul, natCast_zsmul]

theorem exists_zsmul_of_valid {x y : Int} (h : (pointFromAffine x y).isSome = true) :
    ∃ a : Int, 0 ≤ a ∧ a < (p256N : Int) ∧ (x, y) = toAffine (a • p256G) := by
  obtain ⟨A, hA⟩ := exists_point_of_valid h
  obtain ⟨n, hn, hAn⟩ := exists_nsmul_p256G A
  refine ⟨(n : Int), Int.ofNat_nonneg n, Int.ofNat_lt.2 hn, ?_⟩
  rw [hA, hAn, natCast_zsmul]

theorem exists_zsmul (A : p256Curve.Point) :
    ∃ a : Int, 0 ≤ a ∧ a < (p256N : Int) ∧ A = a • p256G := by
  obtain ⟨n, hn, hAn⟩ := exists_nsmul_p256G A
  exact ⟨(n : Int), Int.ofNat_nonneg n, Int.ofNat_lt.2 hn, by rw [hAn, natCast_zsmul]⟩

theorem ScalarBaseMult_Bytes_nonneg (d : Int) (hd : 0 ≤ d) :
    ScalarBaseMult (Bytes d) = toAffine (d • p256G) := by
  rw [ScalarBaseMult_Bytes, natAbs_nsmul d hd]

theorem isSome_pointFromAffine_toAffine (A : p256Curve.Point) :
    (pointFromAffine (toAffine A).1 (toAffine A).2).isSome = true := by
  rw [pointFromAffine_toAffine]
  rfl

set_option maxRecDepth 100000 in
theorem digest_nil : SetBytes (Sum256 []) =
    102987336249554097029535212322581322789799900648198034993379397001115665086549 := by
  decide!

theorem p256N_prime_int : Prime (p256N : Int) :=
  Nat.prime_iff_prime_int.1 p256N_prime

/-! ## Honest runs of the protocol -/

/-- The identity check of an honest credential against the public point of any key `dB`,
for non-negative keys, weight and ephemeral value: it succeeds exactly when the two keys are
congruent modulo `N`. -/
theorem CheckIdentity_honest {ε : Type} (randInt : Int → Except ε Int) (dA dB w k : Int)
    (hdA : 0 ≤ dA) (hdB : 0 ≤ dB) (hw : 0 ≤ w) (hk0 : 0 ≤ k)
    (hk : randInt (2 ^ 130 - 1) = Except.ok k) :
    ∃ cred, GenerateSignature randInt dA w = Except.ok cred ∧
      CheckIdentity cred (ScalarBaseMult (Bytes dB)).1 (ScalarBaseMult (Bytes dB)).2 =
        some (decide ((p256N : Int) ∣ dA - dB)) := by
  refine ⟨_, GenerateSignature_ok randInt dA w k hk, ?_⟩
  rw [natAbs_nsmul k hk0, ScalarBaseMult_Bytes_nonneg dB hdB, CheckIdentity_multiples]
  have hx := toAffine_fst_nonneg (k • p256G)
  have hS : 0 ≤ dA + k * w * (toAffine (k • p256G)).1 :=
    add_nonneg hdA (mul_nonneg (mul_nonneg hk0 hw) hx)
  rw [Int.natAbs_of_nonneg hS, Int.natAbs_of_nonneg (mul_nonneg hw hx)]
  congr 2
  ring_nf

/-- The signature check of an honest signature on `m`, run on a message `m'`, a proxy public
point `c · G`, an original public point `a · G` and a weight `w'`. -/
theorem CheckSignature_honest {ε : Type} (randInt : Int → Except ε Int) (dA dB w k : Int)
    (m : List UInt8) (hdA : 0 ≤ dA) (hdB : 0 ≤ dB) (hw : 0 ≤ w) (hk0 : 0 ≤ k)
    (hk : randInt (2 ^ 130 - 1) = Except.ok k) (m' : List UInt8) (c a w' : Int) :
    ∃ cred, GenerateSignature randInt dA w = Except.ok cred ∧ 0 ≤ cred.xP ∧
      cred.S = dA + k * w * cred.xP ∧
      CheckSignature m' (toAffine (c • p256G)).1 (toAffine (c • p256G)).2
        (toAffine (a • p256G)).1 (toAffine (a • p256G)).2
        (SignMessage m (GenerateSigningKey dB cred) dB) cred.xP cred.yP w' =
      some (decide ((p256N : Int) ∣ ((dB + cred.S) * (SetBytes (Sum256 m) : Int) + dB) -
        ((SetBytes (Sum256 m') : Int) * (c + a + ((w' * cred.xP).natAbs : Int) * k) + c))) := by
  have hx := toAffine_fst_nonneg (k • p256G)
  refine ⟨_, GenerateSignature_ok randInt dA w k hk, ?_, ?_, ?_⟩
  · rw [natAbs_nsmul k hk0]
    exact hx
  · rfl
  · simp only [natAbs_nsmul k hk0]
    rw [CheckSignature_multiples]
    have hS : 0 ≤ dA + k * w * (toAffine (k • p256G)).1 :=
      add_nonneg hdA (mul_nonneg (mul_nonneg hk0 hw) hx)
    have hsigned : 0 ≤ SignMessage m (GenerateSigningKey dB
        { xP := (toAffine (k • p256G)).1, yP := (toAffine (k • p256G)).2,
          S := dA + k * w * (toAffine (k • p256G)).1, W := w }) dB := by
      unfold SignMessage GenerateSigningKey
      exact add_nonneg (mul_nonneg (add_nonneg hdB hS) (Int.ofNat_nonneg _)) hdB
    rw [Int.natAbs_of_nonneg hsigned]
    rfl

/-! ## C10: what `GenerateSignature` returns -/

/-- C10.  When the random draw returns `k` (a value of `rand.Int`, hence not negative),
`GenerateSignature d w` succeeds with a credential whose warrant point is
`ScalarBaseMult (k.Bytes())`, the multiple `k · G` of the base point in the group of the
curve, whose `S` is the integer `d + k·w·xP` with no reduction, and whose `W` is `w`. -/
theorem GenerateSignature_returns {ε : Type} (randInt : Int → Except ε Int) (d w k : Int)
    (hk : randInt (2 ^ 130 - 1) = Except.ok k) (hk0 : 0 ≤ k) :
    ∃ cred, GenerateSignature randInt d w = Except.ok cred ∧
      (cred.xP, cred.yP) = ScalarBaseMult (Bytes k) ∧
      (cred.xP, cred.yP) = toAffine (k.toNat • p256G) ∧
      cred.S = d + k * w * cred.xP ∧ cred.W = w := by
  refine ⟨_, GenerateSignature_ok randInt d w k hk, ?_, ?_, rfl, rfl⟩
  · rw [ScalarBaseMult_Bytes]
  · have h : k.natAbs = k.toNat := by omega
    rw [h]

/-- C10 at the draw `k = 5`, key `d = 7` and weight `w = 3`. -/
theorem GenerateSignature_returns_witness :
    ∃ cred, GenerateSignature (fun _ => (Except.ok 5 : Except Unit Int)) 7 3 = Except.ok cred ∧
      (cred.xP, cred.yP) = ScalarBaseMult (Bytes 5) ∧
      (cred.xP, cred.yP) = toAffine ((5 : Int).toNat • p256G) ∧
      cred.S = 7 + 5 * 3 * cred.xP ∧ cred.W = 3 :=
  GenerateSignature_returns (fun _ => Except.ok 5) 7 3 5 rfl (by decide)

/-! ## C2: delegation roundtrip -/

/-- C2, for weights that are not negative.  For every private key `d ≥ 0`, weight `w ≥ 0` and
value `k ≥ 0` of the random draw, `GenerateSignature d w` succeeds and `CheckIdentity` accepts
its credential for the public point `d · G`. -/
theorem delegation_roundtrip {ε : Type} (randInt : Int → Except ε Int) (d w k : Int)
    (hd : 0 ≤ d) (hw : 0 ≤ w) (hk0 : 0 ≤ k) (hk : randInt (2 ^ 130 - 1) = Except.ok k) :
    ∃ cred, GenerateSignature randInt d w = Except.ok cred ∧
      CheckIdentity cred (ScalarBaseMult (Bytes d)).1 (ScalarBaseMult (Bytes d)).2 =
        some true := by
  obtain ⟨cred, hgen, hcheck⟩ := CheckIdentity_honest randInt d d w k hd hd hw hk0 hk
  refine ⟨cred, hgen, ?_⟩
  rw [hcheck, sub_self]
  simp

/-- C2 at key `d = 7`, weight `w = 3` and draw `k = 5`. -/
theorem delegation_roundtrip_witness :
    ∃ cred, GenerateSignature (fun _ => (Except.ok 5 : Except Unit Int)) 7 3 = Except.ok cred ∧
      CheckIdentity cred (ScalarBaseMult (Bytes 7)).1 (ScalarBaseMult (Bytes 7)).2 =
        some true :=
  delegation_roundtrip (fun _ => Except.ok 5) 7 3 5 (by decide) (by decide) (by decide) rfl

/-- C2 fails for a negative weight: with key `d = 1`, weight `w = -1` and draw `k = 1` the
credential is `(G, 1 - x(G), -1)`, the public point of `d` is `G`, and `CheckIdentity`
rejects. -/
theorem delegation_roundtrip_negative_weight :
    GenerateSignature (fun _ => (Except.ok 1 : Except Unit Int)) 1 (-1) =
        Except.ok ⟨p256Gx, p256Gy, 1 - p256Gx, -1⟩ ∧
      ScalarBaseMult (Bytes 1) = ((p256Gx : Int), (p256Gy : Int)) ∧
      CheckIdentity ⟨p256Gx, p256Gy, 1 - p256Gx, -1⟩ p256Gx p256Gy = some false := by
  refine ⟨?_, ScalarBaseMult_one, ?_⟩
  · rw [GenerateSignature_ok (fun _ => (Except.ok 1 : Except Unit Int)) 1 (-1) 1 rfl]
    simp only [Int.natAbs_one, one_nsmul, toAffine_p256G]
    congr 2
  · have h := CheckIdentity_multiples 1 1 (1 - p256Gx) (-1)
    rw [one_zsmul, toAffine_p256G] at h
    rw [h]
    refine congrArg some (decide_eq_false ?_)
    unfold p256Gx p256N
    decide

/-! ## C1: full protocol roundtrip -/

/-- C1, for weights that are not negative.  For private keys `dA, dB ≥ 0`, weight `w ≥ 0`,
message `m` and value `k ≥ 0` of the random draw: the credential of `GenerateSignature dA w`,
the signing key of `dB` and the signature of `m` pass `CheckSignature` with the public points
`dB · G` and `dA · G`, the warrant point and `w`. -/
theorem full_roundtrip {ε : Type} (randInt : Int → Except ε Int) (dA dB w k : Int)
    (m : List UInt8) (hdA : 0 ≤ dA) (hdB : 0 ≤ dB) (hw : 0 ≤ w) (hk0 : 0 ≤ k)
    (hk : randInt (2 ^ 130 - 1) = Except.ok k) :
    ∃ cred, GenerateSignature randInt dA w = Except.ok cred ∧
      CheckSignature m (ScalarBaseMult (Bytes dB)).1 (ScalarBaseMult (Bytes dB)).2
        (ScalarBaseMult (Bytes dA)).1 (ScalarBaseMult (Bytes dA)).2
        (SignMessage m (GenerateSigningKey dB cred) dB) cred.xP cred.yP w = some true := by
  obtain ⟨cred, hgen, hx, hS, hcheck⟩ :=
    CheckSignature_honest randInt dA dB w k m hdA hdB hw hk0 hk m dB dA w
  refine ⟨cred, hgen, ?_⟩
  rw [ScalarBaseMult_Bytes_nonneg dB hdB, ScalarBaseMult_Bytes_nonneg dA hdA, hcheck]
  refine congrArg some (decide_eq_true ?_)
  rw [Int.natAbs_of_nonneg (mul_nonneg hw hx), hS]
  have h0 : (dB + (dA + k * w * cred.xP)) * (SetBytes (Sum256 m) : Int) + dB -
      ((SetBytes (Sum256 m) : Int) * (dB + dA + w * cred.xP * k) + dB) = 0 := by ring
  rw [h0]
  exact dvd_zero _

/-- C1 at keys `dA = 7`, `dB = 11`, weight `w = 3`, draw `k = 5` and message `[1, 2]`. -/
theorem full_roundtrip_witness :
    ∃ cred, GenerateSignature (fun _ => (Except.ok 5 : Except Unit Int)) 7 3 = Except.ok cred ∧
      CheckSignature [1, 2] (ScalarBaseMult (Bytes 11)).1 (ScalarBaseMult (Bytes 11)).2
        (ScalarBaseMult (Bytes 7)).1 (ScalarBaseMult (Bytes 7)).2
        (SignMessage [1, 2] (GenerateSigningKey 11 cred) 11) cred.xP cred.yP 3 = some true :=
  full_roundtrip (fun _ => Except.ok 5) 7 11 3 5 [1, 2] (by decide) (by decide) (by decide)
    (by decide) rfl

/-- C1 fails for a negative weight: with keys `dA = 1`, `dB = 0`, weight `w = -1`, draw
`k = 1` and the empty message, the credential is `(G, 1 - x(G), -1)`, the public points are
`G` and the point at infinity, and `CheckSignature` rejects the signature. -/
theorem full_roundtrip_negative_weight :
    GenerateSignature (fun _ => (Except.ok 1 : Except Unit Int)) 1 (-1) =
        Except.ok ⟨p256Gx, p256Gy, 1 - p256Gx, -1⟩ ∧
      ScalarBaseMult (Bytes 1) = ((p256Gx : Int), (p256Gy : Int)) ∧
      ScalarBaseMult (Bytes 0) = (0, 0) ∧
      CheckSignature [] 0 0 p256Gx p256Gy
        (SignMessage [] (GenerateSigningKey 0 ⟨p256Gx, p256Gy, 1 - p256Gx, -1⟩) 0)
        p256Gx p256Gy (-1) = some false := by
  refine ⟨?_, ScalarBaseMult_one, ScalarBaseMult_zero, ?_⟩
  · rw [GenerateSignature_ok (fun _ => (Except.ok 1 : Except Unit Int)) 1 (-1) 1 rfl]
    simp only [Int.natAbs_one, one_nsmul, toAffine_p256G]
    congr 2
  · have h := CheckSignature_multiples [] 0 1 1
      (SignMessage [] (GenerateSigningKey 0 ⟨p256Gx, p256Gy, 1 - p256Gx, -1⟩) 0) (-1)
    rw [zero_zsmul, one_zsmul, toAffine_zero, toAffine_p256G] at h
    rw [h]
    refine congrArg some (decide_eq_false ?_)
    unfold SignMessage GenerateSigningKey
    simp only [digest_nil]
    unfold p256Gx p256N
    decide

/-! ## C3: an accepted credential yields accepted signatures -/

/-- C3, for credentials whose `S` is not negative.  For every credential with `S ≥ 0`, every
pair `(xA, yA)`, every proxy key `dB ≥ 0` and every message: if `CheckIdentity` accepts the
credential for `(xA, yA)`, then `CheckSignature` accepts the signature made with the signing
key of `dB`. -/
theorem identity_implies_signature (cred : Signature) (xA yA dB : Int) (m : List UInt8)
    (hdB : 0 ≤ dB) (hS : 0 ≤ cred.S) (h : CheckIdentity cred xA yA = some true) :
    CheckSignature m (ScalarBaseMult (Bytes dB)).1 (ScalarBaseMult (Bytes dB)).2 xA yA
      (SignMessage m (GenerateSigningKey dB cred) dB) cred.xP cred.yP cred.W = some true := by
  obtain ⟨P, A, hP, hA⟩ := CheckIdentity_eq_some h
  obtain ⟨p, -, -, hp⟩ := exists_zsmul P
  obtain ⟨a, -, -, ha⟩ := exists_zsmul A
  obtain ⟨xP, yP, S, W⟩ := cred
  simp only at hP hS h ⊢
  rw [Prod.mk.injEq] at hP hA
  obtain ⟨hP1, hP2⟩ := hP
  obtain ⟨hA1, hA2⟩ := hA
  subst hP1 hP2 hA1 hA2
  subst hp ha
  rw [CheckIdentity_multiples, Int.natAbs_of_nonneg hS] at h
  have hdvd := of_decide_eq_true (Option.some.inj h)
  rw [ScalarBaseMult_Bytes_nonneg dB hdB, CheckSignature_multiples]
  refine congrArg some (decide_eq_true ?_)
  have hsigned : 0 ≤ SignMessage m (GenerateSigningKey dB
      { xP := (toAffine (p • p256G)).1, yP := (toAffine (p • p256G)).2, S := S, W := W }) dB := by
    unfold SignMessage GenerateSigningKey
    exact add_nonneg (mul_nonneg (add_nonneg hdB hS) (Int.ofNat_nonneg _)) hdB
  rw [Int.natAbs_of_nonneg hsigned]
  unfold SignMessage GenerateSigningKey
  simp only
  have hexp : (dB + S) * (SetBytes (Sum256 m) : Int) + dB -
      ((SetBytes (Sum256 m) : Int) *
        (dB + a + ((W * (toAffine (p • p256G)).1).natAbs : Int) * p) + dB) =
      (SetBytes (Sum256 m) : Int) *
        (S - (a + ((W * (toAffine (p • p256G)).1).natAbs : Int) * p)) := by ring
  rw [hexp]
  exact Dvd.dvd.mul_left hdvd _

/-- C3 at the credential `(G, x(G), 1)`, the public point `(0, 0)` of the key `0`, the proxy
key `dB = 11` and the message `[1, 2]`. -/
theorem identity_implies_signature_witness :
    CheckSignature [1, 2] (ScalarBaseMult (Bytes 11)).1 (ScalarBaseMult (Bytes 11)).2 0 0
      (SignMessage [1, 2] (GenerateSigningKey 11 ⟨p256Gx, p256Gy, p256Gx, 1⟩) 11)
      p256Gx p256Gy 1 = some true :=
  identity_implies_signature ⟨p256Gx, p256Gy, p256Gx, 1⟩ 0 0 11 [1, 2] (by decide)
    (by unfold p256Gx; decide)
    (by
      have h := CheckIdentity_multiples 1 0 p256Gx 1
      rw [zero_zsmul, one_zsmul, toAffine_zero, toAffine_p256G] at h
      rw [h]
      refine congrArg some (decide_eq_true ?_)
      unfold p256Gx p256N
      decide)

/-- C3 fails for a credential with negative `S`: `CheckIdentity` accepts the credential
`((0, 0), -1, 0)` for the public point `G`, but with the proxy key `dB = 1` (public point `G`)
and the empty message `CheckSignature` rejects the signature. -/
theorem identity_implies_signature_negative_S :
    CheckIdentity ⟨0, 0, -1, 0⟩ p256Gx p256Gy = some true ∧
      ScalarBaseMult (Bytes 1) = ((p256Gx : Int), (p256Gy : Int)) ∧
      CheckSignature [] p256Gx p256Gy p256Gx p256Gy
        (SignMessage [] (GenerateSigningKey 1 ⟨0, 0, -1, 0⟩) 1) 0 0 0 = some false := by
  refine ⟨?_, ScalarBaseMult_one, ?_⟩
  · have h := CheckIdentity_multiples 0 1 (-1) 0
    rw [zero_zsmul, one_zsmul, toAffine_zero, toAffine_p256G] at h
    rw [h]
    refine congrArg some (decide_eq_true ?_)
    unfold p256N
    decide
  · have h := CheckSignature_multiples [] 1 1 0
      (SignMessage [] (GenerateSigningKey 1 ⟨0, 0, -1, 0⟩) 1) 0
    rw [zero_zsmul, one_zsmul, toAffine_zero, toAffine_p256G] at h
    rw [h]
    refine congrArg some (decide_eq_false ?_)
    unfold SignMessage GenerateSigningKey
    simp only [digest_nil]
    unfold p256N
    decide

/-! ## C4: a changed message -/

/-- C4, as the code decides it.  For an honest roundtrip with keys `dA, dB ≥ 0`, weight
`w ≥ 0` and draw `k ≥ 0`, the signature of `m` checked against a message `m'` is rejected
exactly when `N` does not divide `(dB + S) · (h(m) - h(m'))`, where `h` is the digest read as
an integer: whenever the signing key `dB + S` is not a multiple of `N` and the two digests
are not congruent modulo `N`. -/
theorem message_tamper {ε : Type} (randInt : Int → Except ε Int) (dA dB w k : Int)
    (m m' : List UInt8) (hdA : 0 ≤ dA) (hdB : 0 ≤ dB) (hw : 0 ≤ w) (hk0 : 0 ≤ k)
    (hk : randInt (2 ^ 130 - 1) = Except.ok k) :
    ∃ cred, GenerateSignature randInt dA w = Except.ok cred ∧
      (CheckSignature m' (ScalarBaseMult (Bytes dB)).1 (ScalarBaseMult (Bytes dB)).2
        (ScalarBaseMult (Bytes dA)).1 (ScalarBaseMult (Bytes dA)).2
        (SignMessage m (GenerateSigningKey dB cred) dB) cred.xP cred.yP w = some false ↔
        ¬ (p256N : Int) ∣
          (dB + cred.S) * ((SetBytes (Sum256 m) : Int) - (SetBytes (Sum256 m') : Int))) := by
  obtain ⟨cred, hgen, hx, hS, hcheck⟩ :=
    CheckSignature_honest randInt dA dB w k m hdA hdB hw hk0 hk m' dB dA w
  refine ⟨cred, hgen, ?_⟩
  rw [ScalarBaseMult_Bytes_nonneg dB hdB, ScalarBaseMult_Bytes_nonneg dA hdA, hcheck,
    Option.some.injEq, decide_eq_false_iff_not, Int.natAbs_of_nonneg (mul_nonneg hw hx)]
  have hE : (dB + cred.S) * (SetBytes (Sum256 m) : Int) + dB -
      ((SetBytes (Sum256 m') : Int) * (dB + dA + w * cred.xP * k) + dB) =
      (dB + cred.S) * ((SetBytes (Sum256 m) : Int) - (SetBytes (Sum256 m') : Int)) := by
    rw [hS]
    ring
  rw [hE]

/-- C4 at keys `dA = 7`, `dB = 11`, weight `w = 3`, draw `k = 5` and the messages `[1, 2]`
and `[3]`. -/
theorem message_tamper_witness :
    ∃ cred, GenerateSignature (fun _ => (Except.ok 5 : Except Unit Int)) 7 3 = Except.ok cred ∧
      (CheckSignature [3] (ScalarBaseMult (Bytes 11)).1 (ScalarBaseMult (Bytes 11)).2
        (ScalarBaseMult (Bytes 7)).1 (ScalarBaseMult (Bytes 7)).2
        (SignMessage [1, 2] (GenerateSigningKey 11 cred) 11) cred.xP cred.yP 3 = some false ↔
        ¬ (p256N : Int) ∣
          (11 + cred.S) * ((SetBytes (Sum256 [1, 2]) : Int) - (SetBytes (Sum256 [3]) : Int))) :=
  message_tamper (fun _ => Except.ok 5) 7 11 3 5 [1, 2] [3] (by decide) (by decide) (by decide)
    (by decide) rfl

/-- C4 fails when the signing key is zero: with keys `dA = dB = 0`, weight `w = 1` and draw
`k = 0` the credential is `((0, 0), 0, 1)`, both public points are `(0, 0)`, and the
signature of the empty message passes `CheckSignature` for the different message `[0]`. -/
theorem message_tamper_zero_key :
    GenerateSignature (fun _ => (Except.ok 0 : Except Unit Int)) 0 1 =
        Except.ok ⟨0, 0, 0, 1⟩ ∧
      ScalarBaseMult (Bytes 0) = (0, 0) ∧ ([0] : List UInt8) ≠ [] ∧
      CheckSignature [0] 0 0 0 0 (SignMessage [] (GenerateSigningKey 0 ⟨0, 0, 0, 1⟩) 0)
        0 0 1 = some true := by
  refine ⟨?_, ScalarBaseMult_zero, by decide, ?_⟩
  · rw [GenerateSignature_ok (fun _ => (Except.ok 0 : Except Unit Int)) 0 1 0 rfl]
    simp only [Int.natAbs_zero, zero_nsmul, toAffine_zero]
    congr 2
  · have h := CheckSignature_multiples [0] 0 0 0
      (SignMessage [] (GenerateSigningKey 0 ⟨0, 0, 0, 1⟩) 0) 1
    rw [zero_zsmul, toAffine_zero] at h
    rw [h]
    refine congrArg some (decide_eq_true ?_)
    unfold SignMessage GenerateSigningKey
    simp

/-! ## C5: a changed proxy public point -/

/-- C5, for weights that are not negative and digests other than `N - 1`.  For an honest
roundtrip with keys `dA, dB ≥ 0`, weight `w ≥ 0`, draw `k ≥ 0` and a message whose digest,
read as an integer, is not `N - 1`: for every point `(xC, yC)` of the curve other than the
proxy's public point, `CheckSignature` with `(xC, yC)` in place of that point rejects. -/
theorem proxy_key_tamper {ε : Type} (randInt : Int → Except ε Int) (dA dB w k : Int)
    (m : List UInt8) (xC yC : Int) (hdA : 0 ≤ dA) (hdB : 0 ≤ dB) (hw : 0 ≤ w) (hk0 : 0 ≤ k)
    (hk : randInt (2 ^ 130 - 1) = Except.ok k)
    (hC : (pointFromAffine xC yC).isSome = true)
    (hne : (xC, yC) ≠ ScalarBaseMult (Bytes dB))
    (hh : SetBytes (Sum256 m) + 1 ≠ p256N) :
    ∃ cred, GenerateSignature randInt dA w = Except.ok cred ∧
      CheckSignature m xC yC (ScalarBaseMult (Bytes dA)).1 (ScalarBaseMult (Bytes dA)).2
        (SignMessage m (GenerateSigningKey dB cred) dB) cred.xP cred.yP w = some false := by
  obtain ⟨c, -, -, hc⟩ := exists_zsmul_of_valid hC
  obtain ⟨cred, hgen, hx, hS, hcheck⟩ :=
    CheckSignature_honest randInt dA dB w k m hdA hdB hw hk0 hk m c dA w
  refine ⟨cred, hgen, ?_⟩
  rw [Prod.mk.injEq] at hc
  rw [hc.1, hc.2, ScalarBaseMult_Bytes_nonneg dA hdA, hcheck]
  refine congrArg some (decide_eq_false ?_)
  rw [Int.natAbs_of_nonneg (mul_nonneg hw hx)]
  have hE : (dB + cred.S) * (SetBytes (Sum256 m) : Int) + dB -
      ((SetBytes (Sum256 m) : Int) * (c + dA + w * cred.xP * k) + c) =
      (((SetBytes (Sum256 m) + 1 : Nat) : Int)) * (dB - c) := by
    rw [hS]
    push_cast
    ring
  rw [hE]
  intro hdvd
  rcases p256N_prime_int.dvd_or_dvd hdvd with h1 | h2
  · have h1' := Int.natCast_dvd_natCast.1 h1
    obtain ⟨t, ht⟩ := h1'
    have hlt := SetBytes_Sum256_lt m
    unfold p256N at ht hh
    omega
  · apply hne
    rw [ScalarBaseMult_Bytes_nonneg dB hdB, Prod.mk.injEq, hc.1, hc.2, ← Prod.mk.injEq]
    exact ((toAffine_eq_iff _ _).2 ((zsmul_p256G_eq_iff dB c).2 h2)).symm

theorem toAffine_zsmul_ne_zero (c : Int) (h : ¬ (p256N : Int) ∣ c) :
    toAffine (c • p256G) ≠ (0, 0) := by
  rw [← toAffine_zero, Ne, toAffine_eq_iff, zsmul_p256G_eq_zero_iff]
  exact h

/-- C5 at keys `dA = 7`, `dB = 0`, weight `w = 3`, draw `k = 5`, the empty message and the
base point in place of the proxy's public point. -/
theorem proxy_key_tamper_witness :
    ∃ cred, GenerateSignature (fun _ => (Except.ok 5 : Except Unit Int)) 7 3 = Except.ok cred ∧
      CheckSignature [] p256Gx p256Gy (ScalarBaseMult (Bytes 7)).1 (ScalarBaseMult (Bytes 7)).2
        (SignMessage [] (GenerateSigningKey 0 cred) 0) cred.xP cred.yP 3 = some false :=
  proxy_key_tamper (fun _ => Except.ok 5) 7 0 3 5 [] p256Gx p256Gy (by decide) (by decide)
    (by decide) (by decide) rfl
    (by
      have h := isSome_pointFromAffine_toAffine p256G
      rw [toAffine_p256G] at h
      exact h)
    (by
      rw [ScalarBaseMult_zero]
      unfold p256Gx
      decide)
    (by
      rw [digest_nil]
      unfold p256N
      decide)

/-- C5 fails for a negative weight: with keys `dA = 1`, `dB = 0`, weight `w = -1`, draw
`k = 1` and the empty message, the signature passes `CheckSignature` when the proxy's public
point `(0, 0)` is replaced by the public point of the key `c` below, a different point of the
curve. -/
theorem proxy_key_tamper_negative_weight :
    GenerateSignature (fun _ => (Except.ok 1 : Except Unit Int)) 1 (-1) =
        Except.ok ⟨p256Gx, p256Gy, 1 - p256Gx, -1⟩ ∧
      ScalarBaseMult (Bytes 1) = ((p256Gx : Int), (p256Gy : Int)) ∧
      ScalarBaseMult (Bytes 0) = (0, 0) ∧
      ScalarBaseMult
        (Bytes 27844027299651645736799745128975511914597735296015905616887354523478155799504) ≠
        (0, 0) ∧
      CheckSignature []
        (ScalarBaseMult
          (Bytes 27844027299651645736799745128975511914597735296015905616887354523478155799504)).1
        (ScalarBaseMult
          (Bytes 27844027299651645736799745128975511914597735296015905616887354523478155799504)).2
        p256Gx p256Gy
        (SignMessage [] (GenerateSigningKey 0 ⟨p256Gx, p256Gy, 1 - p256Gx, -1⟩) 0)
        p256Gx p256Gy (-1) = some true := by
  refine ⟨?_, ScalarBaseMult_one, ScalarBaseMult_zero, ?_, ?_⟩
  · rw [GenerateSignature_ok (fun _ => (Except.ok 1 : Except Unit Int)) 1 (-1) 1 rfl]
    simp only [Int.natAbs_one, one_nsmul, toAffine_p256G]
    congr 2
  · rw [ScalarBaseMult_Bytes_nonneg _ (by decide)]
    apply toAffine_zsmul_ne_zero
    unfold p256N
    decide
  · rw [ScalarBaseMult_Bytes_nonneg _ (by decide)]
    have h := CheckSignature_multiples []
      27844027299651645736799745128975511914597735296015905616887354523478155799504 1 1
      (SignMessage [] (GenerateSigningKey 0 ⟨p256Gx, p256Gy, 1 - p256Gx, -1⟩) 0) (-1)
    rw [one_zsmul, toAffine_p256G] at h
    rw [h]
    refine congrArg some (decide_eq_true ?_)
    unfold SignMessage GenerateSigningKey
    simp only [digest_nil]
    unfold p256Gx p256N
    decide

/-! ## C6: a changed weight -/

/-- C6, as the code decides it.  For an honest roundtrip with keys `dA, dB ≥ 0`, weight
`w ≥ 0` and draw `k ≥ 0`, `CheckSignature` with a weight `w'` in place of `w` rejects exactly
when `N` does not divide `h(m) · k · xP · (w - |w'|)`: the sign of `w'` is ignored, and so is
`w'` altogether when the draw or the digest is a multiple of `N`. -/
theorem weight_tamper {ε : Type} (randInt : Int → Except ε Int) (dA dB w k w' : Int)
    (m : List UInt8) (hdA : 0 ≤ dA) (hdB : 0 ≤ dB) (hw : 0 ≤ w) (hk0 : 0 ≤ k)
    (hk : randInt (2 ^ 130 - 1) = Except.ok k) :
    ∃ cred, GenerateSignature randInt dA w = Except.ok cred ∧
      (CheckSignature m (ScalarBaseMult (Bytes dB)).1 (ScalarBaseMult (Bytes dB)).2
        (ScalarBaseMult (Bytes dA)).1 (ScalarBaseMult (Bytes dA)).2
        (SignMessage m (GenerateSigningKey dB cred) dB) cred.xP cred.yP w' = some false ↔
        ¬ (p256N : Int) ∣
          (SetBytes (Sum256 m) : Int) * k * cred.xP * (w - (w'.natAbs : Int))) := by
  obtain ⟨cred, hgen, hx, hS, hcheck⟩ :=
    CheckSignature_honest randInt dA dB w k m hdA hdB hw hk0 hk m dB dA w'
  refine ⟨cred, hgen, ?_⟩
  rw [ScalarBaseMult_Bytes_nonneg dB hdB, ScalarBaseMult_Bytes_nonneg dA hdA, hcheck,
    Option.some.injEq, decide_eq_false_iff_not, Int.natAbs_mul, Nat.cast_mul,
    Int.natAbs_of_nonneg hx]
  have hE : (dB + cred.S) * (SetBytes (Sum256 m) : Int) + dB -
      ((SetBytes (Sum256 m) : Int) * (dB + dA + (w'.natAbs : Int) * cred.xP * k) + dB) =
      (SetBytes (Sum256 m) : Int) * k * cred.xP * (w - (w'.natAbs : Int)) := by
    rw [hS]
    ring
  rw [hE]

/-- C6 at keys `dA = 7`, `dB = 11`, weights `w = 3` and `w' = 4`, draw `k = 5` and the
message `[1, 2]`. -/
theorem weight_tamper_witness :
    ∃ cred, GenerateSignature (fun _ => (Except.ok 5 : Except Unit Int)) 7 3 = Except.ok cred ∧
      (CheckSignature [1, 2] (ScalarBaseMult (Bytes 11)).1 (ScalarBaseMult (Bytes 11)).2
        (ScalarBaseMult (Bytes 7)).1 (ScalarBaseMult (Bytes 7)).2
        (SignMessage [1, 2] (GenerateSigningKey 11 cred) 11) cred.xP cred.yP 4 = some false ↔
        ¬ (p256N : Int) ∣
          (SetBytes (Sum256 [1, 2]) : Int) * 5 * cred.xP * (3 - ((4 : Int).natAbs : Int))) :=
  weight_tamper (fun _ => Except.ok 5) 7 11 3 5 4 [1, 2] (by decide) (by decide) (by decide)
    (by decide) rfl

/-- C6 fails for the opposite weight: with keys `dA = dB = 0`, weight `w = 1`, draw `k = 1`
and the empty message, the signature passes `CheckSignature` with the weight `-1`. -/
theorem weight_tamper_opposite_weight :
    GenerateSignature (fun _ => (Except.ok 1 : Except Unit Int)) 0 1 =
        Except.ok ⟨p256Gx, p256Gy, p256Gx, 1⟩ ∧
      ScalarBaseMult (Bytes 0) = (0, 0) ∧ (-1 : Int) ≠ 1 ∧
      CheckSignature [] 0 0 0 0
        (SignMessage [] (GenerateSigningKey 0 ⟨p256Gx, p256Gy, p256Gx, 1⟩) 0)
        p256Gx p256Gy (-1) = some true := by
  refine ⟨?_, ScalarBaseMult_zero, by decide, ?_⟩
  · rw [GenerateSignature_ok (fun _ => (Except.ok 1 : Except Unit Int)) 0 1 1 rfl]
    simp only [Int.natAbs_one, one_nsmul, toAffine_p256G]
    congr 2
  · have h := CheckSignature_multiples [] 0 0 1
      (SignMessage [] (GenerateSigningKey 0 ⟨p256Gx, p256Gy, p256Gx, 1⟩) 0) (-1)
    rw [zero_zsmul, one_zsmul, toAffine_zero, toAffine_p256G] at h
    rw [h]
    refine congrArg some (decide_eq_true ?_)
    unfold SignMessage GenerateSigningKey
    simp only [digest_nil]
    unfold p256Gx p256N
    decide

/-! ## C7: a changed original public point -/

/-- C7, for weights that are not negative and digests other than `0` and `N`.  For an honest
roundtrip with keys `dA, dB ≥ 0`, weight `w ≥ 0`, draw `k ≥ 0` and a message whose digest,
read as an integer, is neither `0` nor `N`: for every point `(xQ, yQ)` of the curve other
than the original signer's public point, `CheckSignature` with `(xQ, yQ)` in place of that
point rejects. -/
theorem original_key_tamper {ε : Type} (randInt : Int → Except ε Int) (dA dB w k : Int)
    (m : List UInt8) (xQ yQ : Int) (hdA : 0 ≤ dA) (hdB : 0 ≤ dB) (hw : 0 ≤ w) (hk0 : 0 ≤ k)
    (hk : randInt (2 ^ 130 - 1) = Except.ok k)
    (hQ : (pointFromAffine xQ yQ).isSome = true)
    (hne : (xQ, yQ) ≠ ScalarBaseMult (Bytes dA))
    (hh0 : SetBytes (Sum256 m) ≠ 0) (hhN : SetBytes (Sum256 m) ≠ p256N) :
    ∃ cred, GenerateSignature randInt dA w = Except.ok cred ∧
      CheckSignature m (ScalarBaseMult (Bytes dB)).1 (ScalarBaseMult (Bytes dB)).2 xQ yQ
        (SignMessage m (GenerateSigningKey dB cred) dB) cred.xP cred.yP w = some false := by
  obtain ⟨a, -, -, ha⟩ := exists_zsmul_of_valid hQ
  obtain ⟨cred, hgen, hx, hS, hcheck⟩ :=
    CheckSignature_honest randInt dA dB w k m hdA hdB hw hk0 hk m dB a w
  refine ⟨cred, hgen, ?_⟩
  rw [Prod.mk.injEq] at ha
  rw [ha.1, ha.2, ScalarBaseMult_Bytes_nonneg dB hdB, hcheck]
  refine congrArg some (decide_eq_false ?_)
  rw [Int.natAbs_of_nonneg (mul_nonneg hw hx)]
  have hE : (dB + cred.S) * (SetBytes (Sum256 m) : Int) + dB -
      ((SetBytes (Sum256 m) : Int) * (dB + a + w * cred.xP * k) + dB) =
      ((SetBytes (Sum256 m) : Nat) : Int) * (dA - a) := by
    rw [hS]
    ring
  rw [hE]
  intro hdvd
  rcases p256N_prime_int.dvd_or_dvd hdvd with h1 | h2
  · have h1' := Int.natCast_dvd_natCast.1 h1
    obtain ⟨t, ht⟩ := h1'
    have hlt := SetBytes_Sum256_lt m
    unfold p256N at ht hhN
    omega
  · apply hne
    rw [ScalarBaseMult_Bytes_nonneg dA hdA, Prod.mk.injEq, ha.1, ha.2, ← Prod.mk.injEq]
    exact ((toAffine_eq_iff _ _).2 ((zsmul_p256G_eq_iff dA a).2 h2)).symm

/-- C7 at keys `dA = 0`, `dB = 11`, weight `w = 3`, draw `k = 5`, the empty message and the
base point in place of the original signer's public point. -/
theorem original_key_tamper_witness :
    ∃ cred, GenerateSignature (fun _ => (Except.ok 5 : Except Unit Int)) 0 3 = Except.ok cred ∧
      CheckSignature [] (ScalarBaseMult (Bytes 11)).1 (ScalarBaseMult (Bytes 11)).2
        p256Gx p256Gy
        (SignMessage [] (GenerateSigningKey 11 cred) 11) cred.xP cred.yP 3 = some false :=
  original_key_tamper (fun _ => Except.ok 5) 0 11 3 5 [] p256Gx p256Gy (by decide) (by decide)
    (by decide) (by decide) rfl
    (by
      have h := isSome_pointFromAffine_toAffine p256G
      rw [toAffine_p256G] at h
      exact h)
    (by
      rw [ScalarBaseMult_zero]
      unfold p256Gx
      decide)
    (by
      rw [digest_nil]
      decide)
    (by
      rw [digest_nil]
      unfold p256N
      decide)

/-- C7 fails for a negative weight: with keys `dA = 1`, `dB = 0`, weight `w = -1`, draw
`k = 1` and the empty message, the signature passes `CheckSignature` when the original
signer's public point `G` is replaced by the public point of the key `N - 1`, a different
point of the curve. -/
theorem original_key_tamper_negative_weight :
    GenerateSignature (fun _ => (Except.ok 1 : Except Unit Int)) 1 (-1) =
        Except.ok ⟨p256Gx, p256Gy, 1 - p256Gx, -1⟩ ∧
      ScalarBaseMult (Bytes 1) = ((p256Gx : Int), (p256Gy : Int)) ∧
      ScalarBaseMult (Bytes 0) = (0, 0) ∧
      ScalarBaseMult (Bytes ((p256N : Int) - 1)) ≠ ((p256Gx : Int), (p256Gy : Int)) ∧
      CheckSignature [] 0 0
        (ScalarBaseMult (Bytes ((p256N : Int) - 1))).1
        (ScalarBaseMult (Bytes ((p256N : Int) - 1))).2
        (SignMessage [] (GenerateSigningKey 0 ⟨p256Gx, p256Gy, 1 - p256Gx, -1⟩) 0)
        p256Gx p256Gy (-1) = some true := by
  have hN : (0 : Int) ≤ (p256N : Int) - 1 := by
    unfold p256N
    decide
  refine ⟨?_, ScalarBaseMult_one, ScalarBaseMult_zero, ?_, ?_⟩
  · rw [GenerateSignature_ok (fun _ => (Except.ok 1 : Except Unit Int)) 1 (-1) 1 rfl]
    simp only [Int.natAbs_one, one_nsmul, toAffine_p256G]
    congr 2
  · rw [ScalarBaseMult_Bytes_nonneg _ hN, ← toAffine_p256G, Ne, toAffine_eq_iff]
    intro h
    have h1 : ((p256N : Int) - 1) • p256G = (1 : Int) • p256G := by rw [h, one_zsmul]
    rw [zsmul_p256G_eq_iff] at h1
    revert h1
    unfold p256N
    decide
  · rw [ScalarBaseMult_Bytes_nonneg _ hN]
    have h := CheckSignature_multiples [] 0 ((p256N : Int) - 1) 1
      (SignMessage [] (GenerateSigningKey 0 ⟨p256Gx, p256Gy, 1 - p256Gx, -1⟩) 0) (-1)
    rw [zero_zsmul, one_zsmul, toAffine_zero, toAffine_p256G] at h
    rw [h]
    refine congrArg some (decide_eq_true ?_)
    unfold SignMessage GenerateSigningKey
    simp only [digest_nil]
    unfold p256Gx p256N
    decide

/-! ## C8: the identity check against another key -/

/-- C8, as the code decides it.  For keys `dA, dB ≥ 0`, weight `w ≥ 0` and draw `k ≥ 0`,
`CheckIdentity` rejects the credential of `dA` for the public point of `dB` exactly when the
two keys are not congruent modulo `N`. -/
theorem identity_rejection {ε : Type} (randInt : Int → Except ε Int) (dA dB w k : Int)
    (hdA : 0 ≤ dA) (hdB : 0 ≤ dB) (hw : 0 ≤ w) (hk0 : 0 ≤ k)
    (hk : randInt (2 ^ 130 - 1) = Except.ok k) :
    ∃ cred, GenerateSignature randInt dA w = Except.ok cred ∧
      (CheckIdentity cred (ScalarBaseMult (Bytes dB)).1 (ScalarBaseMult (Bytes dB)).2 =
        some false ↔ dA % (p256N : Int) ≠ dB % (p256N : Int)) := by
  obtain ⟨cred, hgen, hcheck⟩ := CheckIdentity_honest randInt dA dB w k hdA hdB hw hk0 hk
  refine ⟨cred, hgen, ?_⟩
  rw [hcheck, Option.some.injEq, decide_eq_false_iff_not, Ne, not_iff_not,
    Int.emod_eq_emod_iff_emod_sub_eq_zero]
  exact Int.dvd_iff_emod_eq_zero

/-- C8 at keys `dA = 7`, `dB = 11`, weight `w = 3` and draw `k = 5`. -/
theorem identity_rejection_witness :
    ∃ cred, GenerateSignature (fun _ => (Except.ok 5 : Except Unit Int)) 7 3 = Except.ok cred ∧
      (CheckIdentity cred (ScalarBaseMult (Bytes 11)).1 (ScalarBaseMult (Bytes 11)).2 =
        some false ↔ (7 : Int) % (p256N : Int) ≠ 11 % (p256N : Int)) :=
  identity_rejection (fun _ => Except.ok 5) 7 11 3 5 (by decide) (by decide) (by decide)
    (by decide) rfl

/-- C8 fails for keys congruent modulo `N`: with keys `dA = 0` and `dB = N`, weight `w = 1`
and draw `k = 1`, the public point of `dB` is `(0, 0)` and `CheckIdentity` accepts the
credential of `dA` for it. -/
theorem identity_rejection_congruent_keys :
    GenerateSignature (fun _ => (Except.ok 1 : Except Unit Int)) 0 1 =
        Except.ok ⟨p256Gx, p256Gy, p256Gx, 1⟩ ∧
      ScalarBaseMult (Bytes (p256N : Int)) = (0, 0) ∧ (0 : Int) ≠ (p256N : Int) ∧
      CheckIdentity ⟨p256Gx, p256Gy, p256Gx, 1⟩ 0 0 = some true := by
  refine ⟨?_, ?_, ?_, ?_⟩
  · rw [GenerateSignature_ok (fun _ => (Except.ok 1 : Except Unit Int)) 0 1 1 rfl]
    simp only [Int.natAbs_one, one_nsmul, toAffine_p256G]
    congr 2
  · rw [ScalarBaseMult_Bytes, Int.natAbs_ofNat, order_nsmul_p256G]
    rfl
  · unfold p256N
    decide
  · have h := CheckIdentity_multiples 1 0 p256Gx 1
    rw [zero_zsmul, one_zsmul, toAffine_zero, toAffine_p256G] at h
    rw [h]
    refine congrArg some (decide_eq_true ?_)
    unfold p256Gx p256N
    decide

/-! ## C9: what an accepted credential satisfies -/

/-- C9, modulo `N`.  For every credential with `S ≥ 0` and `W ≥ 0` and every key `dA ≥ 0`: if
`CheckIdentity` accepts the credential for the public point of `dA`, then there is a scalar
`0 ≤ k < N` with warrant point `k · G` and `S ≡ dA + k·W·xP` modulo `N`. -/
theorem credential_invariant (cred : Signature) (dA : Int) (hdA : 0 ≤ dA) (hS : 0 ≤ cred.S)
    (hW : 0 ≤ cred.W)
    (h : CheckIdentity cred (ScalarBaseMult (Bytes dA)).1 (ScalarBaseMult (Bytes dA)).2 =
      some true) :
    ∃ k : Int, 0 ≤ k ∧ k < (p256N : Int) ∧ ScalarBaseMult (Bytes k) = (cred.xP, cred.yP) ∧
      (p256N : Int) ∣ cred.S - (dA + k * cred.W * cred.xP) := by
  obtain ⟨P, A, hP, -⟩ := CheckIdentity_eq_some h
  obtain ⟨k, hk0, hkN, hk⟩ := exists_zsmul P
  obtain ⟨xP, yP, S, W⟩ := cred
  simp only at hP hS hW h ⊢
  rw [Prod.mk.injEq] at hP
  obtain ⟨hP1, hP2⟩ := hP
  subst hP1 hP2
  subst hk
  refine ⟨k, hk0, hkN, ScalarBaseMult_Bytes_nonneg k hk0, ?_⟩
  rw [ScalarBaseMult_Bytes_nonneg dA hdA, CheckIdentity_multiples, Int.natAbs_of_nonneg hS,
    Int.natAbs_of_nonneg (mul_nonneg hW (toAffine_fst_nonneg _))] at h
  have hdvd := of_decide_eq_true (Option.some.inj h)
  have hE : S - (dA + k * W * (toAffine (k • p256G)).1) =
      S - (dA + W * (toAffine (k • p256G)).1 * k) := by ring
  rw [hE]
  exact hdvd

/-- C9 at the credential `(G, 7 + x(G), 1)` and the key `dA = 7`. -/
theorem credential_invariant_witness :
    ∃ k : Int, 0 ≤ k ∧ k < (p256N : Int) ∧
      ScalarBaseMult (Bytes k) = ((p256Gx : Int), (p256Gy : Int)) ∧
      (p256N : Int) ∣ (7 + (p256Gx : Int)) - (7 + k * 1 * (p256Gx : Int)) :=
  credential_invariant ⟨p256Gx, p256Gy, 7 + p256Gx, 1⟩ 7 (by decide)
    (by unfold p256Gx; decide) (by decide)
    (by
      rw [ScalarBaseMult_Bytes_nonneg 7 (by decide)]
      have h := CheckIdentity_multiples 1 7 (7 + p256Gx) 1
      rw [one_zsmul, toAffine_p256G] at h
      rw [h]
      refine congrArg some (decide_eq_true ?_)
      unfold p256Gx p256N
      decide)

/-- C9 fails as an equality of integers: `CheckIdentity` accepts the credential
`((0, 0), N + 1, 1)` for the public point `G` of the key `dA = 1`, but no scalar `k` has
`N + 1 = 1 + k · 1 · 0`. -/
theorem credential_invariant_not_integer :
    ScalarBaseMult (Bytes 1) = ((p256Gx : Int), (p256Gy : Int)) ∧
      CheckIdentity ⟨0, 0, (p256N : Int) + 1, 1⟩ p256Gx p256Gy = some true ∧
      ¬ ∃ k : Int, ScalarBaseMult (Bytes k) = (0, 0) ∧ (p256N : Int) + 1 = 1 + k * 1 * 0 := by
  refine ⟨ScalarBaseMult_one, ?_, ?_⟩
  · have h := CheckIdentity_multiples 0 1 ((p256N : Int) + 1) 1
    rw [zero_zsmul, one_zsmul, toAffine_zero, toAffine_p256G] at h
    rw [h]
    refine congrArg some (decide_eq_true ?_)
    unfold p256N
    decide
  · rintro ⟨k, -, hk⟩
    rw [mul_zero, add_zero] at hk
    revert hk
    unfold p256N
    decide

/-! ## The random draw -/

theorem GenerateSignature_error {ε : Type} (randInt : Int → Except ε Int) (d w : Int) (err : ε)
    (hk : randInt (2 ^ 130 - 1) = Except.error err) :
    GenerateSignature randInt d w = Except.error err := by
  unfold GenerateSignature
  simp only [hk]

theorem GenerateSignature_error_iff {ε : Type} (draw : Int → Except ε Int) (d w : Int)
    (err : ε) :
    GenerateSignature draw d w = Except.error err ↔ draw (2 ^ 130 - 1) = Except.error err := by
  cases hr : draw (2 ^ 130 - 1) with
  | error e2 =>
    rw [GenerateSignature_error draw d w e2 hr, Except.error.injEq, Except.error.injEq]
  | ok k =>
    rw [GenerateSignature_ok draw d w k hr]
    simp

theorem randIntLoop_ok {ε : Type} (max : Int) (k b fuel : Nat) (rand : Reader ε) (n : Int)
    (h : randIntLoop max k b fuel rand = Except.ok n) : 0 ≤ n ∧ n < max := by
  induction fuel generalizing rand with
  | zero => simp [randIntLoop] at h
  | succ f ih =>
    unfold randIntLoop at h
    cases hr : ReadFull rand k with
    | error err =>
      rw [hr] at h
      simp at h
    | ok r =>
      obtain ⟨bytes, rest⟩ := r
      rw [hr] at h
      simp only at h
      split_ifs at h with hlt
      · rw [← Except.ok.inj h]
        exact ⟨Int.ofNat_nonneg _, hlt⟩
      · exact ih rest h

/-- The error of the loop of `rand.Int`: the loop uses up candidates of `k` bytes, so it ends
on an exhausted source, with the error of the source, or inside a candidate, with the error
`io.ReadFull` makes of it. -/
theorem randIntLoop_error {ε : Type} (max : Int) (k b fuel : Nat) (rand : Reader ε)
    (e : ReadError ε) (hk : 0 < k) (hf : rand.data.length < fuel)
    (h : randIntLoop max k b fuel rand = Except.error e) :
    e = if rand.data.length % k = 0 then rand.err else shortRead rand.err := by
  induction fuel generalizing rand with
  | zero => omega
  | succ f ih =>
    unfold randIntLoop at h
    cases hr : ReadFull rand k with
    | error err =>
      rw [hr] at h
      simp only [Except.error.injEq] at h
      unfold ReadFull at hr
      split_ifs at hr with h1 h2
      · rw [← h, ← Except.error.inj hr, h2, Nat.zero_mod, if_pos rfl]
      · rw [← h, ← Except.error.inj hr, Nat.mod_eq_of_lt (not_le.1 h1), if_neg h2]
    | ok r =>
      obtain ⟨bytes, rest⟩ := r
      rw [hr] at h
      simp only at h
      split_ifs at h with hlt
      unfold ReadFull at hr
      split_ifs at hr with h1
      have h2 := Except.ok.inj hr
      rw [Prod.mk.injEq] at h2
      have hlen : rest.data.length = rand.data.length - k := by
        rw [← h2.2, List.length_drop]
      have hrest := ih rest (by omega) h
      rw [hrest, hlen, ← Nat.mod_eq_sub_mod h1, ← h2.2]

theorem randInt_ok {ε : Type} (rand : Reader ε) (max n : Int)
    (h : randInt rand max = Except.ok n) : 0 ≤ n ∧ n < max := by
  unfold randInt at h
  simp only at h
  split_ifs at h with h0 h1
  · rw [← Except.ok.inj h]
    omega
  all_goals exact randIntLoop_ok _ _ _ _ _ _ h

theorem SetBytes_replicate_append (z : Nat) (l : List UInt8) :
    SetBytes (List.replicate z 0 ++ l) = SetBytes l := by
  induction z with
  | zero => rfl
  | succ z ih =>
    rw [List.replicate_succ, List.cons_append, SetBytes_cons, ih]
    simp

theorem mask_of_lt (b0 : UInt8) (h : b0.toNat < 4) : b0 &&& UInt8.ofNat (2 ^ 2 - 1) = b0 := by
  apply UInt8.toNat.inj
  rw [UInt8.and_toNat, UInt8.toNat_ofNat_of_lt (by decide)]
  exact (Nat.and_pow_two_sub_one_eq_mod b0.toNat 2).trans (Nat.mod_eq_of_lt h)

theorem maskFirst_FillBytes (x : Int) (h : x.natAbs < 2 ^ 130) :
    maskFirst 2 (FillBytes x 17) = FillBytes x 17 := by
  unfold FillBytes
  cases hz : 17 - (Bytes x).length with
  | succ z =>
    rw [List.replicate_succ, List.cons_append]
    unfold maskFirst
    rfl
  | zero =>
    rw [List.replicate_zero, List.nil_append]
    cases hb : Bytes x with
    | nil => rfl
    | cons b0 rest =>
      show (b0 &&& UInt8.ofNat (2 ^ 2 - 1)) :: rest = b0 :: rest
      rw [mask_of_lt]
      have hlen : (Bytes x).length ≤ 17 := by
        rw [length_Bytes_le]
        exact lt_of_lt_of_le h (by norm_num)
      have hval := SetBytes_Bytes x
      rw [hb, SetBytes_cons] at hval
      rw [hb, List.length_cons] at hlen hz
      have hr : rest.length = 16 := by omega
      rw [hr] at hval
      omega

set_option maxRecDepth 100000 in
theorem BitLen_bound : BitLen (2 ^ 130 - 2) = 130 := by
  decide!

/-- The draw of `GenerateSignature`: candidates of 17 bytes whose first byte keeps 2 bits. -/
theorem randInt_bound {ε : Type} (rand : Reader ε) :
    randInt rand (2 ^ 130 - 1) =
      randIntLoop (2 ^ 130 - 1) 17 2 (rand.data.length + 1) rand := by
  have hn : ((2 : Int) ^ 130 - 1 - 1).toNat = 2 ^ 130 - 2 := by
    norm_num
    rfl
  unfold randInt
  rw [if_neg (by norm_num)]
  simp only [hn, BitLen_bound]
  rfl

theorem randInt_error {ε : Type} (rand : Reader ε) (e : ReadError ε)
    (h : randInt rand (2 ^ 130 - 1) = Except.error e) :
    e = if rand.data.length % 17 = 0 then rand.err else shortRead rand.err := by
  rw [randInt_bound] at h
  exact randIntLoop_error _ _ _ _ _ _ (by decide) (Nat.lt_succ_self _) h

/-- The source that supplies the 17 bytes of `k` draws `k`, for `0 ≤ k ≤ 2^130 - 2`. -/
theorem randInt_FillBytes {ε : Type} (e : ReadError ε) (k : Int) (h0 : 0 ≤ k)
    (hk : k ≤ 2 ^ 130 - 2) : randInt ⟨FillBytes k 17, e⟩ (2 ^ 130 - 1) = Except.ok k := by
  have hnat : k.natAbs < 2 ^ 130 - 1 := by omega
  have hlen : (Bytes k).length ≤ 17 := by
    rw [length_Bytes_le]
    exact lt_of_lt_of_le hnat (by norm_num)
  have hfill : (FillBytes k 17).length = 17 := by
    unfold FillBytes
    rw [List.length_append, List.length_replicate]
    omega
  have hread : ReadFull ⟨FillBytes k 17, e⟩ 17 = Except.ok (FillBytes k 17, ⟨[], e⟩) := by
    unfold ReadFull
    simp only [hfill, le_refl, if_true]
    rw [List.take_of_length_le (le_of_eq hfill), List.drop_of_length_le (le_of_eq hfill)]
  have hset : SetBytes (maskFirst 2 (FillBytes k 17)) = k.natAbs := by
    rw [maskFirst_FillBytes k (by omega)]
    unfold FillBytes
    rw [SetBytes_replicate_append, SetBytes_Bytes]
  rw [randInt_bound]
  simp only [hfill]
  unfold randIntLoop
  rw [hread]
  simp only [hset, Int.natAbs_of_nonneg h0]
  rw [if_pos (by omega)]

/-! ## Scalars that reach the curve -/

theorem Bytes_neg (x : Int) : Bytes (-x) = Bytes x := by
  unfold Bytes
  rw [Int.natAbs_neg]

theorem ScalarBaseMult_Bytes_congr (a b : Int) (ha : 0 ≤ a) (hb : 0 ≤ b)
    (h : (p256N : Int) ∣ a - b) : ScalarBaseMult (Bytes a) = ScalarBaseMult (Bytes b) := by
  rw [ScalarBaseMult_Bytes_nonneg a ha, ScalarBaseMult_Bytes_nonneg b hb, toAffine_eq_iff,
    zsmul_p256G_eq_iff]
  exact h

/-! ## C11: the range of the ephemeral scalar -/

/-- C11, with the upper end `2^130 - 2`.  The values `GenerateSignature` can draw for the
ephemeral scalar are exactly the integers from `0` to `2^130 - 2`: a credential comes from a
draw `k` in that interval, and for every `k` in that interval some source of random bytes
makes `GenerateSignature` draw `k`. -/
theorem ephemeral_range {ε : Type} (d w : Int) :
    (∀ (rand : Reader ε) (cred : Signature),
      GenerateSignature (randInt rand) d w = Except.ok cred →
      ∃ k : Int, 0 ≤ k ∧ k ≤ 2 ^ 130 - 2 ∧ randInt rand (2 ^ 130 - 1) = Except.ok k ∧
        (cred.xP, cred.yP) = ScalarBaseMult (Bytes k) ∧ cred.S = d + k * w * cred.xP) ∧
    (∀ k : Int, 0 ≤ k → k ≤ 2 ^ 130 - 2 →
      ∃ (rand : Reader ε) (cred : Signature), randInt rand (2 ^ 130 - 1) = Except.ok k ∧
        GenerateSignature (randInt rand) d w = Except.ok cred ∧
        (cred.xP, cred.yP) = ScalarBaseMult (Bytes k)) := by
  constructor
  · intro rand cred hgen
    cases hr : randInt rand (2 ^ 130 - 1) with
    | error err =>
      rw [GenerateSignature_error (randInt rand) d w err hr] at hgen
      exact Except.noConfusion hgen
    | ok k =>
      have hb := randInt_ok rand _ k hr
      rw [GenerateSignature_ok (randInt rand) d w k hr] at hgen
      rw [← Except.ok.inj hgen]
      refine ⟨k, hb.1, by omega, rfl, ?_, rfl⟩
      rw [ScalarBaseMult_Bytes]
  · intro k h0 hk
    have hr := randInt_FillBytes (ReadError.EOF : ReadError ε) k h0 hk
    refine ⟨⟨FillBytes k 17, ReadError.EOF⟩, _, hr, GenerateSignature_ok _ d w k hr, ?_⟩
    rw [ScalarBaseMult_Bytes]

set_option maxRecDepth 100000 in
/-- C11 fails at the upper end: no source of random bytes makes the draw return `2^130 - 1`;
the source that supplies exactly the 17 bytes of `2^130 - 1` and then `io.EOF` has its
candidate rejected and then fails with `io.EOF`. -/
theorem ephemeral_range_top_not_drawn :
    (¬ ∃ rand : Reader Unit, randInt rand (2 ^ 130 - 1) = Except.ok (2 ^ 130 - 1)) ∧
      randInt (⟨[3, 255, 255, 255, 255, 255, 255, 255, 255, 255, 255, 255, 255, 255, 255, 255,
        255], ReadError.EOF⟩ : Reader Unit) (2 ^ 130 - 1) = Except.error ReadError.EOF := by
  constructor
  · rintro ⟨rand, h⟩
    have hb := randInt_ok rand _ _ h
    omega
  · rw [randInt_bound]
    rfl

/-! ## C12: failure of `GenerateSignature` -/

/-- C12.  `GenerateSignature` returns an error exactly when the random draw
`rand.Int(rand.Reader, max)` returns one, and then it is that error, unchanged, and no
credential; on a successful draw `k` it returns a credential, whose `S` is the integer
`d + k·w·xP`, and no error.  When the bytes of the draw come from a source that ends, the
error is the error of the source if the source ends between two candidates of 17 bytes, and
otherwise what `io.ReadFull` makes of it: `io.ErrUnexpectedEOF` for `io.EOF`, the error
itself for another one.  The empty source that ends with `io.EOF` gives `io.EOF`, the source
of 5 bytes that ends with `io.EOF` gives `io.ErrUnexpectedEOF`. -/
theorem GenerateSignature_failure {ε : Type} (d w : Int) :
    (∀ (draw : Int → Except ε Int) (err : ε),
      GenerateSignature draw d w = Except.error err ↔ draw (2 ^ 130 - 1) = Except.error err) ∧
    (∀ (draw : Int → Except ε Int) (cred : Signature),
      GenerateSignature draw d w = Except.ok cred ↔
        ∃ k, draw (2 ^ 130 - 1) = Except.ok k ∧ (cred.xP, cred.yP) = ScalarBaseMult (Bytes k) ∧
          cred.S = d + k * w * cred.xP ∧ cred.W = w) ∧
    (∀ (rand : Reader ε) (err : ReadError ε),
      GenerateSignature (randInt rand) d w = Except.error err →
        err = if rand.data.length % 17 = 0 then rand.err else shortRead rand.err) ∧
    GenerateSignature (randInt (⟨[], ReadError.EOF⟩ : Reader ε)) d w =
      Except.error ReadError.EOF ∧
    GenerateSignature (randInt (⟨[1, 2, 3, 4, 5], ReadError.EOF⟩ : Reader ε)) d w =
      Except.error ReadError.ErrUnexpectedEOF := by
  refine ⟨fun draw => GenerateSignature_error_iff draw d w, ?_, ?_, ?_, ?_⟩
  · intro draw cred
    cases hr : draw (2 ^ 130 - 1) with
    | error e2 =>
      rw [GenerateSignature_error draw d w e2 hr]
      simp
    | ok k =>
      rw [GenerateSignature_ok draw d w k hr, ← ScalarBaseMult_Bytes]
      constructor
      · intro h
        rw [← Except.ok.inj h]
        exact ⟨k, rfl, rfl, rfl, rfl⟩
      · rintro ⟨k2, hk2, hP, hS, hW⟩
        rw [← Except.ok.inj hk2] at hP hS
        obtain ⟨xP, yP, S, W⟩ := cred
        simp only at hP hS hW
        rw [Prod.mk.injEq] at hP
        rw [hS, hW, hP.1, hP.2]
  · intro rand err h
    exact randInt_error rand err ((GenerateSignature_error_iff (randInt rand) d w err).1 h)
  · apply GenerateSignature_error
    rw [randInt_bound]
    rfl
  · apply GenerateSignature_error
    rw [randInt_bound]
    rfl

/-! ## C15: what `SignMessage` returns -/

/-- C15.  `SignMessage m l d` is the integer `l·h + d` with no reduction, where `h` is the
32-byte SHA-256 digest of `m` read as a big-endian unsigned integer, `0 ≤ h < 2^256`; with the
signing key of `GenerateSigningKey d cred` it is `(d + cred.S)·h + d`. -/
theorem SignMessage_returns (m : List UInt8) (l d : Int) :
    SignMessage m l d = l * (SetBytes (Sum256 m) : Int) + d ∧ (Sum256 m).length = 32 ∧
      (0 : Int) ≤ (SetBytes (Sum256 m) : Int) ∧ (SetBytes (Sum256 m) : Int) < 2 ^ 256 ∧
      ∀ cred : Signature, SignMessage m (GenerateSigningKey d cred) d =
        (d + cred.S) * (SetBytes (Sum256 m) : Int) + d := by
  refine ⟨rfl, length_Sum256 m, Int.ofNat_nonneg _, ?_, fun cred => rfl⟩
  have h := SetBytes_Sum256_lt m
  exact_mod_cast h

/-! ## C18 and C19: the secrets by integer division -/

/-- C18.  For an issuance with weight `w`, draw `k` and key `0 ≤ d < w·xP` (in particular
for `w ≥ 1` and `k ≥ 0`), the remainder of `S` by `W·xP` is `d` and the quotient is `k`. -/
theorem key_from_credential {ε : Type} (draw : Int → Except ε Int) (d w k : Int)
    (hk : draw (2 ^ 130 - 1) = Except.ok k) (hd0 : 0 ≤ d)
    (hd : d < w * (ScalarBaseMult (Bytes k)).1) :
    ∃ cred, GenerateSignature draw d w = Except.ok cred ∧
      cred.S % (cred.W * cred.xP) = d ∧ cred.S / (cred.W * cred.xP) = k := by
  refine ⟨_, GenerateSignature_ok draw d w k hk, ?_, ?_⟩
  · simp only
    rw [ScalarBaseMult_Bytes] at hd
    have hS : d + k * w * (toAffine (k.natAbs • p256G)).1 =
        d + w * (toAffine (k.natAbs • p256G)).1 * k := by ring
    rw [hS, Int.add_mul_emod_self_left, Int.emod_eq_of_lt hd0 hd]
  · simp only
    rw [ScalarBaseMult_Bytes] at hd
    have hS : d + k * w * (toAffine (k.natAbs • p256G)).1 =
        d + w * (toAffine (k.natAbs • p256G)).1 * k := by ring
    have hpos : w * (toAffine (k.natAbs • p256G)).1 ≠ 0 := by
      intro h0
      rw [h0] at hd
      omega
    rw [hS, Int.add_mul_ediv_left _ _ hpos, Int.ediv_eq_zero_of_lt hd0 hd, zero_add]

/-- C18 at the draw `k = 1`, weight `w = 1` and key `d = 7`. -/
theorem key_from_credential_witness :
    ∃ cred, GenerateSignature (fun _ => (Except.ok 1 : Except Unit Int)) 7 1 = Except.ok cred ∧
      cred.S % (cred.W * cred.xP) = 7 ∧ cred.S / (cred.W * cred.xP) = 1 :=
  key_from_credential (fun _ => Except.ok 1) 7 1 1 rfl (by decide)
    (by
      rw [ScalarBaseMult_one]
      unfold p256Gx
      decide)

/-- C19.  For a message with digest integer `h ≥ 1`, a signing key `l` (in particular
`l ≥ 0`) and a proxy key `0 ≤ d < h`, the remainder of `SignMessage m l d` by `h` is `d` and
the quotient is `l`. -/
theorem secrets_from_signature (m : List UInt8) (l d : Int)
    (hh : 1 ≤ SetBytes (Sum256 m)) (hd0 : 0 ≤ d)
    (hd : d < (SetBytes (Sum256 m) : Int)) :
    SignMessage m l d % (SetBytes (Sum256 m) : Int) = d ∧
      SignMessage m l d / (SetBytes (Sum256 m) : Int) = l := by
  have hne : (SetBytes (Sum256 m) : Int) ≠ 0 := by omega
  unfold SignMessage
  simp only
  constructor
  · rw [add_comm, Int.add_mul_emod_self, Int.emod_eq_of_lt hd0 hd]
  · rw [add_comm, Int.add_mul_ediv_right _ _ hne, Int.ediv_eq_zero_of_lt hd0 hd, zero_add]

/-- C19 at the empty message, signing key `l = 5` and proxy key `d = 7`. -/
theorem secrets_from_signature_witness :
    SignMessage [] 5 7 % (SetBytes (Sum256 []) : Int) = 7 ∧
      SignMessage [] 5 7 / (SetBytes (Sum256 []) : Int) = 5 :=
  secrets_from_signature [] 5 7 (by rw [digest_nil]; decide) (by decide)
    (by rw [digest_nil]; decide)

/-! ## C13 and C14: what the two checks decide -/

/-- C13, with the absolute value of `w·x(P)`.  For every message `m`, points `B`, `A`, `P` of
the curve, scalar `signed ≥ 0` and integer weight `w`, `CheckSignature` returns true exactly
when `signed·G = h·(B + A + |w·x(P)|·P) + B` in the group of the curve, and false exactly
when it does not; `h` is the digest integer of `SignMessage`.  For `w ≥ 0` the scalar
`|w·x(P)|` is `w·x(P)`. -/
theorem CheckSignature_decides (m : List UInt8) (B A P : p256Curve.Point) (signed w : Int)
    (hs : 0 ≤ signed) :
    (CheckSignature m (toAffine B).1 (toAffine B).2 (toAffine A).1 (toAffine A).2 signed
        (toAffine P).1 (toAffine P).2 w = some true ↔
      signed • p256G =
        SetBytes (Sum256 m) • (B + A + (w * (toAffine P).1).natAbs • P) + B) ∧
    (CheckSignature m (toAffine B).1 (toAffine B).2 (toAffine A).1 (toAffine A).2 signed
        (toAffine P).1 (toAffine P).2 w = some false ↔
      signed • p256G ≠
        SetBytes (Sum256 m) • (B + A + (w * (toAffine P).1).natAbs • P) + B) := by
  rw [CheckSignature_toAffine, natAbs_nsmul signed hs, Option.some.injEq, Option.some.injEq,
    decide_eq_true_iff, decide_eq_false_iff_not, toAffine_eq_iff]
  exact ⟨Iff.rfl, Iff.rfl⟩

/-- C13 at the empty message, the points `B = A = O`, `P = G`, the scalar `0` and the weight
`1`. -/
theorem CheckSignature_decides_witness :
    (CheckSignature [] (toAffine (0 : p256Curve.Point)).1 (toAffine (0 : p256Curve.Point)).2
        (toAffine (0 : p256Curve.Point)).1 (toAffine (0 : p256Curve.Point)).2 0
        (toAffine p256G).1 (toAffine p256G).2 1 = some true ↔
      (0 : Int) • p256G =
        SetBytes (Sum256 []) • ((0 : p256Curve.Point) + 0 +
          (1 * (toAffine p256G).1).natAbs • p256G) + 0) ∧
    (CheckSignature [] (toAffine (0 : p256Curve.Point)).1 (toAffine (0 : p256Curve.Point)).2
        (toAffine (0 : p256Curve.Point)).1 (toAffine (0 : p256Curve.Point)).2 0
        (toAffine p256G).1 (toAffine p256G).2 1 = some false ↔
      (0 : Int) • p256G ≠
        SetBytes (Sum256 []) • ((0 : p256Curve.Point) + 0 +
          (1 * (toAffine p256G).1).natAbs • p256G) + 0) :=
  CheckSignature_decides [] 0 0 p256G 0 1 (by decide)

/-- C13 fails for a negative weight: with the empty message, the points `B = A = (0, 0)`,
`P = G`, the weight `-1` and the scalar `h·x(G)`, `CheckSignature` returns true, while
`signed·G` is not `h·(B + A + (w·x(P))·P) + B`, the multiple by the negative integer
`w·x(P)` being the one of the group. -/
theorem CheckSignature_decides_negative_weight :
    toAffine (0 : p256Curve.Point) = (0, 0) ∧
      toAffine p256G = ((p256Gx : Int), (p256Gy : Int)) ∧
      CheckSignature [] 0 0 0 0 ((SetBytes (Sum256 []) : Int) * p256Gx) p256Gx p256Gy (-1) =
        some true ∧
      ¬ (((SetBytes (Sum256 []) : Int) * p256Gx) • p256G =
        SetBytes (Sum256 []) • ((0 : p256Curve.Point) + 0 +
          ((-1 : Int) * (p256Gx : Int)) • p256G) + 0) := by
  refine ⟨toAffine_zero, toAffine_p256G, ?_, ?_⟩
  · have h := CheckSignature_multiples [] 0 0 1 ((SetBytes (Sum256 []) : Int) * p256Gx) (-1)
    rw [zero_zsmul, one_zsmul, toAffine_zero, toAffine_p256G] at h
    rw [h]
    refine congrArg some (decide_eq_true ?_)
    simp only [digest_nil]
    unfold p256Gx p256N
    decide
  · rw [add_zero, zero_add, zero_add, ← natCast_zsmul, ← mul_zsmul, zsmul_p256G_eq_iff,
      digest_nil]
    unfold p256Gx p256N
    decide

/-- C14, with the absolute value of `W·x(P)`.  For every credential with warrant point `P`,
scalar `S ≥ 0` and integer weight `W`, and every point `Q` of the curve, `CheckIdentity`
returns true exactly when `S·G = Q + |W·x(P)|·P` in the group of the curve, and false exactly
when it does not.  For `W ≥ 0` the scalar `|W·x(P)|` is `W·x(P)`. -/
theorem CheckIdentity_decides (P Q : p256Curve.Point) (S W : Int) (hS : 0 ≤ S) :
    (CheckIdentity ⟨(toAffine P).1, (toAffine P).2, S, W⟩ (toAffine Q).1 (toAffine Q).2 =
        some true ↔ S • p256G = Q + (W * (toAffine P).1).natAbs • P) ∧
    (CheckIdentity ⟨(toAffine P).1, (toAffine P).2, S, W⟩ (toAffine Q).1 (toAffine Q).2 =
        some false ↔ S • p256G ≠ Q + (W * (toAffine P).1).natAbs • P) := by
  rw [CheckIdentity_toAffine, natAbs_nsmul S hS, Option.some.injEq, Option.some.injEq,
    decide_eq_true_iff, decide_eq_false_iff_not, toAffine_eq_iff]
  exact ⟨Iff.rfl, Iff.rfl⟩

/-- C14 at the warrant point `G`, the scalar `S = 5`, the weight `W = 3` and the point `O`. -/
theorem CheckIdentity_decides_witness :
    (CheckIdentity ⟨(toAffine p256G).1, (toAffine p256G).2, 5, 3⟩
        (toAffine (0 : p256Curve.Point)).1 (toAffine (0 : p256Curve.Point)).2 = some true ↔
      (5 : Int) • p256G = 0 + (3 * (toAffine p256G).1).natAbs • p256G) ∧
    (CheckIdentity ⟨(toAffine p256G).1, (toAffine p256G).2, 5, 3⟩
        (toAffine (0 : p256Curve.Point)).1 (toAffine (0 : p256Curve.Point)).2 = some false ↔
      (5 : Int) • p256G ≠ 0 + (3 * (toAffine p256G).1).natAbs • p256G) :=
  CheckIdentity_decides p256G 0 5 3 (by decide)

/-- C14 fails for a negative weight: `CheckIdentity` accepts the credential
`(G, S = x(G), W = -1)` for the point `(0, 0)`, while `S·G` is not `O + (W·x(P))·P`, the
multiple by the negative integer `W·x(P)` being the one of the group. -/
theorem CheckIdentity_decides_negative_weight :
    toAffine (0 : p256Curve.Point) = (0, 0) ∧
      toAffine p256G = ((p256Gx : Int), (p256Gy : Int)) ∧
      CheckIdentity ⟨p256Gx, p256Gy, p256Gx, -1⟩ 0 0 = some true ∧
      ¬ ((p256Gx : Int) • p256G =
        (0 : p256Curve.Point) + ((-1 : Int) * (p256Gx : Int)) • p256G) := by
  refine ⟨toAffine_zero, toAffine_p256G, ?_, ?_⟩
  · have h := CheckIdentity_multiples 1 0 p256Gx (-1)
    rw [zero_zsmul, one_zsmul, toAffine_zero, toAffine_p256G] at h
    rw [h]
    refine congrArg some (decide_eq_true ?_)
    unfold p256Gx p256N
    decide
  · rw [zero_add, zsmul_p256G_eq_iff]
    unfold p256Gx p256N
    decide

/-! ## C16: reduction modulo `N` -/

/-- C16.  For every credential with `S ≥ 0` and every pair `(xQ, yQ)`, `CheckIdentity` gives
the same result for `S` and for `S mod N`; and for every proxy key `dB ≥ 0`, message and
other arguments, `CheckSignature` gives the same result for `SignMessage(m, dB + S, dB)` as
for `SignMessage(m, (dB + S) mod N, dB) mod N`. -/
theorem reduction_invariance (cred : Signature) (xQ yQ dB : Int) (m : List UInt8)
    (xHb yHb xHa yHa xP yP w : Int) (hS : 0 ≤ cred.S) (hdB : 0 ≤ dB) :
    CheckIdentity cred xQ yQ =
        CheckIdentity { cred with S := cred.S % (p256N : Int) } xQ yQ ∧
      CheckSignature m xHb yHb xHa yHa (SignMessage m (dB + cred.S) dB) xP yP w =
        CheckSignature m xHb yHb xHa yHa
          (SignMessage m ((dB + cred.S) % (p256N : Int)) dB % (p256N : Int)) xP yP w := by
  have hN : (p256N : Int) ≠ 0 := by
    unfold p256N
    decide
  have hh : (0 : Int) ≤ (SetBytes (Sum256 m) : Int) := Int.ofNat_nonneg _
  constructor
  · have hc := ScalarBaseMult_Bytes_congr cred.S (cred.S % (p256N : Int)) hS
      (Int.emod_nonneg _ hN) (Int.dvd_sub_of_emod_eq rfl)
    unfold CheckIdentity
    simp only [hc]
  · have h1 : 0 ≤ SignMessage m (dB + cred.S) dB := by
      unfold SignMessage
      exact add_nonneg (mul_nonneg (add_nonneg hdB hS) hh) hdB
    have h2 : (SignMessage m ((dB + cred.S) % (p256N : Int)) dB % (p256N : Int)) ≡
        SignMessage m (dB + cred.S) dB [ZMOD (p256N : Int)] := by
      unfold SignMessage
      exact (Int.mod_modEq _ _).trans (((Int.mod_modEq _ _).mul_right _).add_right _)
    have hc := ScalarBaseMult_Bytes_congr _ _ h1 (Int.emod_nonneg _ hN)
      (Int.modEq_iff_dvd.1 h2)
    unfold CheckSignature
    simp only [hc]

/-- C16 at the credential `(G, S = N + 5, W = 1)`, the pair `(0, 0)`, the proxy key
`dB = 11`, the message `[1, 2]` and the points `(0, 0)`, `(0, 0)`, `G` with weight `1`. -/
theorem reduction_invariance_witness :
    CheckIdentity ⟨p256Gx, p256Gy, (p256N : Int) + 5, 1⟩ 0 0 =
        CheckIdentity { (⟨p256Gx, p256Gy, (p256N : Int) + 5, 1⟩ : Signature) with
          S := ((p256N : Int) + 5) % (p256N : Int) } 0 0 ∧
      CheckSignature [1, 2] 0 0 0 0 (SignMessage [1, 2] (11 + ((p256N : Int) + 5)) 11)
          p256Gx p256Gy 1 =
        CheckSignature [1, 2] 0 0 0 0
          (SignMessage [1, 2] ((11 + ((p256N : Int) + 5)) % (p256N : Int)) 11 % (p256N : Int))
          p256Gx p256Gy 1 :=
  reduction_invariance ⟨p256Gx, p256Gy, (p256N : Int) + 5, 1⟩ 0 0 11 [1, 2] 0 0 0 0
    p256Gx p256Gy 1 (by unfold p256N; decide) (by decide)

/-! ## C17: issuances with different draws -/

/-- C17.  For every key and weight, two calls of `GenerateSignature` whose draws return
different values `k1 ≠ k2`, both from `0` to `2^130 - 1`, return credentials with different
warrant points, hence different credentials. -/
theorem issuances_differ {ε : Type} (draw1 draw2 : Int → Except ε Int) (d w k1 k2 : Int)
    (h1 : draw1 (2 ^ 130 - 1) = Except.ok k1) (h2 : draw2 (2 ^ 130 - 1) = Except.ok k2)
    (hk1 : 0 ≤ k1 ∧ k1 ≤ 2 ^ 130 - 1) (hk2 : 0 ≤ k2 ∧ k2 ≤ 2 ^ 130 - 1) (hne : k1 ≠ k2) :
    ∃ c1 c2, GenerateSignature draw1 d w = Except.ok c1 ∧
      GenerateSignature draw2 d w = Except.ok c2 ∧ (c1.xP, c1.yP) ≠ (c2.xP, c2.yP) ∧
      c1 ≠ c2 := by
  have hP : toAffine (k1.natAbs • p256G) ≠ toAffine (k2.natAbs • p256G) := by
    rw [natAbs_nsmul k1 hk1.1, natAbs_nsmul k2 hk2.1, Ne, toAffine_eq_iff, zsmul_p256G_eq_iff]
    intro hdvd
    apply hne
    have habs : |k1 - k2| < (p256N : Int) := by
      rw [abs_lt]
      unfold p256N
      constructor <;> omega
    have h0 := Int.eq_zero_of_abs_lt_dvd hdvd habs
    omega
  refine ⟨_, _, GenerateSignature_ok draw1 d w k1 h1, GenerateSignature_ok draw2 d w k2 h2,
    hP, ?_⟩
  intro hc
  apply hP
  rw [Signature.mk.injEq] at hc
  exact Prod.ext hc.1 hc.2.1

/-- C17 at the draws `k1 = 5` and `k2 = 6`, key `d = 7` and weight `w = 3`. -/
theorem issuances_differ_witness :
    ∃ c1 c2, GenerateSignature (fun _ => (Except.ok 5 : Except Unit Int)) 7 3 = Except.ok c1 ∧
      GenerateSignature (fun _ => (Except.ok 6 : Except Unit Int)) 7 3 = Except.ok c2 ∧
      (c1.xP, c1.yP) ≠ (c2.xP, c2.yP) ∧ c1 ≠ c2 :=
  issuances_differ (fun _ => Except.ok 5) (fun _ => Except.ok 6) 7 3 5 6 rfl rfl
    (by norm_num) (by norm_num) (by decide)

/-! ## C20: the sign of the scalars -/

/-- C20.  For all inputs, `CheckSignature` returns the same result for `-w` as for `w` and
for `-signed` as for `signed`, and `CheckIdentity` returns the same result for the credential
with `-S` in place of `S` and with `-W` in place of `W`. -/
theorem sign_ignored (m : List UInt8) (xHb yHb xHa yHa signed xP yP w : Int)
    (cred : Signature) (xH yH : Int) :
    CheckSignature m xHb yHb xHa yHa signed xP yP (-w) =
        CheckSignature m xHb yHb xHa yHa signed xP yP w ∧
      CheckSignature m xHb yHb xHa yHa (-signed) xP yP w =
        CheckSignature m xHb yHb xHa yHa signed xP yP w ∧
      CheckIdentity { cred with S := -cred.S } xH yH = CheckIdentity cred xH yH ∧
      CheckIdentity { cred with W := -cred.W } xH yH = CheckIdentity cred xH yH := by
  unfold CheckSignature CheckIdentity
  simp only [neg_mul, Bytes_neg, and_self]

end ProxySignature
